import Mathlib

/-!
# shellish: command-line parser, executable resolver and process orchestration

A shallow embedding of `shellish-skeleton.c`.

* A C string is the list of its characters before the terminating NUL
  (`Str`); a `char *` that may be `NULL` is an `Option Str`.
* `strtok_r` returns the token together with the new value of `saveptr`.
* Loops over a buffer carry a fuel argument that is at least the number of
  iterations the buffer allows; the entry points supply it.
* Every token after the name of a stage is copied with `strcpy` into
  `char temp_buf[1024]`. A token of 1024 bytes or more does not fit: the
  behaviour of the C program is undefined from there, and `parse_command`
  has no result (`none`).
* `malloc`/`realloc`/`strdup` are taken to succeed.
-/

namespace Shellish

abbrev Str := List Char

/-! ## Data model -/

/-- The `enum return_codes` value `SUCCESS`. -/
def SUCCESS : Int := 0

/-- The `enum return_codes` value `EXIT`. -/
def EXIT : Int := 1

/-- The record `struct command_t`. In `args` and `redirects` the value `none`
is the `NULL` pointer. -/
structure command_t where
  name : Str
  background : Bool
  auto_complete : Bool
  arg_count : Nat
  args : List (Option Str)
  redirects : List (Option Str)
  next : Option command_t

/-- The struct after `memset(command, 0, sizeof(struct command_t))`. -/
def command_zero : command_t :=
  { name := [], background := false, auto_complete := false, arg_count := 0,
    args := [], redirects := [none, none, none], next := none }

/-- The stages reachable from a command through `next`, head first. -/
def stages : command_t → List command_t
  | ⟨n, b, a, k, as, rs, none⟩ => [⟨n, b, a, k, as, rs, none⟩]
  | ⟨n, b, a, k, as, rs, some c⟩ => ⟨n, b, a, k, as, rs, some c⟩ :: stages c

/-! ## Tokenizer -/

/-- The test `strchr(splitters, c) != NULL` with `splitters = " \t"`. -/
def is_splitter (c : Char) : Bool := c == ' ' || c == '\t'

/-- The call `strtok_r(s, delim, &saveptr)`: skip leading delimiters; with
nothing left return `NULL`; otherwise the token runs to the next delimiter,
which is overwritten with NUL, and `saveptr` is placed just after it. The
result is the token and the new `saveptr`. -/
def strtok_r (delim : Char → Bool) (s : Str) : Option Str × Str :=
  let s1 := s.dropWhile delim
  if s1 = [] then (none, [])
  else (some (s1.takeWhile (fun c => !delim c)),
        (s1.dropWhile (fun c => !delim c)).drop 1)

/-! ## parse_command -/

/-- The call `realloc(args, sizeof(char *) * n)`: the first slots are kept, new
slots are indeterminate (represented by `none`). -/
def realloc (args : List (Option Str)) (n : Nat) : List (Option Str) :=
  args.take n ++ List.replicate (n - args.length) none

/-- The loop `for (i = k; i > 0; --i) args[i] = args[i - 1];`. -/
def shift_args : Nat → List (Option Str) → List (Option Str)
  | 0, args => args
  | i + 1, args => shift_args i (args.set (i + 1) (args.getD i none))

/-- Lines 197-210 of `parse_command`: store `arg_count`, grow `args` by two
slots, shift every argument one slot to the right, put a copy of the name in
slot 0 and `NULL` in the last slot. -/
def finalize_args (command : command_t) (arg_index : Nat) : command_t :=
  let arg_count := arg_index + 2
  let args := realloc command.args arg_count
  let args := shift_args (arg_count - 2) args
  let args := args.set 0 (some command.name)
  let args := args.set (arg_count - 1) none
  { command with arg_count := arg_count, args := args }

/-- The condition of lines 185-187: the argument is longer than two characters
and wrapped in a pair of double or of single quotes. -/
def quote_wrapped (arg : Str) : Bool :=
  decide (arg.length > 2) &&
    ((arg.head? == some '"' && arg.getLast? == some '"') ||
     (arg.head? == some '\'' && arg.getLast? == some '\''))

/-- Lines 162-195 of `parse_command`, the treatment of one token that is not
the pipe: `&` is skipped, a token starting with `<`, `>` or `>>` fills a
redirection slot with the rest of the token, anything else is appended to
`args` after one layer of wrapping quotes is removed. The result is the
updated command and `arg_index`. -/
def handle_arg (arg : Str) (command : command_t) (arg_index : Nat) : command_t × Nat :=
  if arg = ['&'] then (command, arg_index)
  else
    let redirect_index : Option Nat := if arg.head? = some '<' then some 0 else none
    let ra : Option Nat × Str :=
      if arg.head? = some '>' then
        if arg.length > 1 ∧ arg.get? 1 = some '>' then (some 2, arg.drop 1)
        else (some 1, arg)
      else (redirect_index, arg)
    match ra.1 with
    | some i =>
      ({ command with redirects := command.redirects.set i (some (ra.2.drop 1)) }, arg_index)
    | none =>
      let arg := if quote_wrapped ra.2 then (ra.2.dropLast).drop 1 else ra.2
      ({ command with args := command.args ++ [some arg] }, arg_index + 1)

/-- The size of `char temp_buf[1024]`. -/
def temp_buf_size : Nat := 1024

mutual
/-- The `while (1)` loop of `parse_command` (lines 128-196) followed by lines
197-210. `saveptr` is the unread rest of the buffer, `command.args` holds the
`arg_index` arguments stored so far. The call `strcpy(arg, pch)` needs
`strlen(pch) + 1` bytes of `temp_buf`; with a longer token there is no
result. -/
def parse_args : Nat → Str → command_t → Nat → Option command_t
  | 0, _, command, arg_index => some (finalize_args command arg_index)
  | fuel + 1, saveptr, command, arg_index =>
    match strtok_r is_splitter saveptr with
    | (none, _) => some (finalize_args command arg_index)
    | (some pch, saveptr) =>
      if temp_buf_size < pch.length + 1 then none
      else if pch.length = 0 then parse_args fuel saveptr command arg_index
      else
        let arg := (pch.dropWhile is_splitter).rdropWhile is_splitter
        if arg.length = 0 then parse_args fuel saveptr command arg_index
        else if arg = ['|'] then
          match parse_command_fuel fuel (saveptr.dropWhile is_splitter) command_zero with
          | none => none
          | some c => some (finalize_args { command with next := some c } arg_index)
        else
          let r := handle_arg arg command arg_index
          parse_args fuel saveptr r.1 r.2
/-- The body of `parse_command(buf, command)`: trim the buffer, set the two
flags from its last character, take the first token as the name, then run
the argument loop. -/
def parse_command_fuel : Nat → Str → command_t → Option command_t
  | 0, _, command => some command
  | fuel + 1, buf, command =>
    let buf := buf.dropWhile is_splitter
    let buf := buf.rdropWhile is_splitter
    let command :=
      if buf.getLast? = some '?' then { command with auto_complete := true } else command
    let command :=
      if buf.getLast? = some '&' then { command with background := true } else command
    let tk := strtok_r is_splitter buf
    let command := { command with name := tk.1.getD [] }
    let command := { command with args := [] }
    parse_args fuel tk.2 command 0
end

/-- The function `parse_command(buf, command)`: the command it leaves in
`*command`, or `none` when a token overflows `temp_buf`. -/
def parse_command (buf : Str) (command : command_t) : Option command_t :=
  parse_command_fuel (2 * buf.length + 2) buf command

/-! ## Environment of a run -/

/-- The mode of an `open` call of the child: `O_RDONLY`,
`O_WRONLY | O_CREAT | O_TRUNC` or `O_WRONLY | O_CREAT | O_APPEND`. -/
inductive open_mode where
  | rdonly
  | trunc
  | append
deriving DecidableEq

/-- What the operating system answers during one run: the value of
`getenv("PATH")`, whether `access(path, X_OK)` is 0, whether `open` and
`chdir` succeed, whether `pipe` succeeds in a given process, and for `execv`
either the exit status of the program that replaces the image or `none` when
the call fails. `fork` is taken to succeed (the code never tests for -1). -/
structure World where
  path_env : Option Str
  access_x : Str → Bool
  open_ok : Str → open_mode → Bool
  chdir_ok : Option Str → Bool
  pipe_ok : List Nat → Bool
  execv_status : Str → List (Option Str) → Option Int

/-! ## resolve_in_path -/

/-- The `for` loop of `resolve_in_path` over the directories of the copied
`PATH` value: the first candidate `dir/cmd` that passes the check is
returned. -/
def resolve_dirs (X : Str → Bool) (cmd : Str) : Nat → Str → Option Str
  | 0, _ => none
  | fuel + 1, saveptr =>
    match strtok_r (fun c => c == ':') saveptr with
    | (none, _) => none
    | (some dir, saveptr) =>
      let full := dir ++ '/' :: cmd
      if X full then some full else resolve_dirs X cmd fuel saveptr

/-- The function `resolve_in_path(cmd)`; `none` is the `NULL` result. -/
def resolve_in_path (w : World) (cmd : Str) : Option Str :=
  if cmd = [] then none
  else if '/' ∈ cmd then (if w.access_x cmd then some cmd else none)
  else
    match w.path_env with
    | none => none
    | some path_env => resolve_dirs w.access_x cmd (path_env.length + 1) path_env

/-! ## process_command -/

/-- A process is named by the path of fork indices leading to it from the
shell. -/
abbrev Pid := List Nat

/-- The system and library calls made while a command runs. -/
inductive Ev where
  | pipe
  | pipe_failed
  | fork (child : Pid)
  | dup2_pipe_stdout
  | dup2_pipe_stdin
  | close_pipe_read
  | close_pipe_write
  | printf_not_found (name : Str)
  | printf_error (what : Str)
  | open_file (path : Str) (mode : open_mode)
  | dup2_file_stdin
  | dup2_file_stdout
  | close_file
  | execv (path : Str) (args : List (Option Str))
  | exit (status : Int)
  | waitpid (child : Pid) (nohang : Bool)
  | chdir (path : Option Str)
  | chatroom_session (room user : Option Str)
  | cut_builtin
deriving DecidableEq

/-- The call `execv(fullpath, command->args)` and what follows it (lines
622-627, and 542-545 in the left child): the actions and the exit status of
the process. -/
def do_execv (w : World) (fullpath : Str) (command : command_t) : List Ev × Int :=
  match w.execv_status fullpath command.args with
  | some status => ([Ev.execv fullpath command.args], status)
  | none =>
    ([Ev.execv fullpath command.args, Ev.printf_error command.name, Ev.exit 127], 127)

/-- One of the three redirection blocks of lines 592-620 followed by the rest
of the child `k`: with the slot unset nothing happens; otherwise the file is
opened, on failure the child reports and exits with 1, on success the
descriptor replaces the standard stream. -/
def apply_redirect (w : World) (slot : Option Str) (mode : open_mode) (dup : Ev)
    (k : List Ev × Int) : List Ev × Int :=
  match slot with
  | none => k
  | some path =>
    if w.open_ok path mode then (Ev.open_file path mode :: dup :: Ev.close_file :: k.1, k.2)
    else ([Ev.open_file path mode, Ev.printf_error path, Ev.exit 1], 1)

/-- The child of the single-stage path (lines 574-627): its actions and its
exit status. -/
def child_body (w : World) (command : command_t) : List Ev × Int :=
  match resolve_in_path w command.name with
  | none => ([Ev.printf_not_found command.name, Ev.exit 127], 127)
  | some fullpath =>
    apply_redirect w (command.redirects.getD 0 none) open_mode.rdonly Ev.dup2_file_stdin
      (apply_redirect w (command.redirects.getD 1 none) open_mode.trunc Ev.dup2_file_stdout
        (apply_redirect w (command.redirects.getD 2 none) open_mode.append Ev.dup2_file_stdout
          (do_execv w fullpath command)))

/-- The left child of the pipe path (lines 530-546): its actions and its exit
status. -/
def left_body (w : World) (command : command_t) : List Ev × Int :=
  let r : List Ev × Int :=
    match resolve_in_path w command.name with
    | none => ([Ev.printf_not_found command.name, Ev.exit 127], 127)
    | some fullpath => do_execv w fullpath command
  (Ev.dup2_pipe_stdout :: Ev.close_pipe_read :: Ev.close_pipe_write :: r.1, r.2)

/-- The function `process_command(command)` run in process `pid`: the value
returned to the caller, and the calls made by `pid` and by every process
descending from it, each tagged with the process that makes it. The
`chatroom` session and the `cut` builtin are one call each: what happens
inside them is not followed. -/
def process_command (w : World) : Pid → command_t → Int × List (Pid × Ev)
  | pid, ⟨name, background, auto_complete, arg_count, args, redirects, next⟩ =>
    let command : command_t :=
      ⟨name, background, auto_complete, arg_count, args, redirects, next⟩
    if name = [] then (SUCCESS, [])
    else if name = "exit".toList then (EXIT, [])
    else if name = "cd".toList ∧ arg_count > 0 then
      let path := args.getD 1 none
      if w.chdir_ok path then (SUCCESS, [(pid, Ev.chdir path)])
      else (SUCCESS, [(pid, Ev.chdir path), (pid, Ev.printf_error name)])
    else if name = "chatroom".toList then
      if arg_count < 3 then (SUCCESS, [])
      else (SUCCESS, [(pid, Ev.chatroom_session (args.getD 1 none) (args.getD 2 none))])
    else if name = "cut".toList then (SUCCESS, [(pid, Ev.cut_builtin)])
    else
      match next with
      | some nx =>
        if w.pipe_ok pid then
          let left := pid ++ [0]
          let right := pid ++ [1]
          let l := left_body w command
          let r := process_command w right nx
          (SUCCESS,
            (pid, Ev.pipe) :: (pid, Ev.fork left) :: l.1.map (fun e => (left, e)) ++
            (pid, Ev.fork right) ::
              (right, Ev.dup2_pipe_stdin) :: (right, Ev.close_pipe_read) ::
              (right, Ev.close_pipe_write) :: r.2 ++
            [(right, Ev.exit r.1), (pid, Ev.close_pipe_read), (pid, Ev.close_pipe_write),
             (pid, Ev.waitpid left background), (pid, Ev.waitpid right background)])
        else (SUCCESS, [(pid, Ev.pipe_failed), (pid, Ev.printf_error "pipe".toList)])
      | none =>
        let child := pid ++ [0]
        let b := child_body w command
        (SUCCESS,
          (pid, Ev.fork child) :: b.1.map (fun e => (child, e)) ++
          [(pid, Ev.waitpid child background)])

/-- Whether a name is none of the names `process_command` handles itself. -/
def is_external (name : Str) : Bool :=
  !(name == [] || name == "exit".toList || name == "cd".toList ||
    name == "chatroom".toList || name == "cut".toList)

/-- The number of `pipe` calls in a trace. -/
def count_pipes (t : List (Pid × Ev)) : Nat :=
  t.countP (fun e => e.2 == Ev.pipe)

/-- The number of `fork` calls in a trace. -/
def count_forks (t : List (Pid × Ev)) : Nat :=
  t.countP (fun e => match e.2 with
    | Ev.fork _ => true
    | _ => false)

/-! ## Tokens of a line -/

/-- The delimiter-separated tokens of a string: the non-empty pieces between
delimiters. -/
def tokens (delim : Char → Bool) (s : Str) : List Str :=
  (s.splitOnP delim).filter (fun t => decide (t ≠ []))

/-- The last character of a line that is neither a space nor a tab. -/
def last_non_ws (line : Str) : Option Char :=
  (line.filter (fun c => !is_splitter c)).getLast?

/-- The last character of the last token. -/
def last_char (ts : List Str) : Option Char :=
  ts.getLast?.bind List.getLast?

mutual
/-- The tokens the argument loop copies into `temp_buf`, when these are the
tokens still to come: every token up to and including a pipe token, then,
after the name that follows the pipe, the tokens of the next loop. -/
def loop_tokens : List Str → List Str
  | [] => []
  | t :: ts => t :: (if t = ['|'] then stage_tokens ts else loop_tokens ts)
/-- The tokens copied into `temp_buf` while a chain is parsed from these
tokens: all but the name of each stage. -/
def stage_tokens : List Str → List Str
  | [] => []
  | _ :: ts => loop_tokens ts
end

/-- The tokens of a line that `parse_command` copies into `temp_buf`. -/
def temp_buf_tokens (line : Str) : List Str :=
  stage_tokens (tokens is_splitter line)

/-- Whether every token of the line that is copied into `temp_buf` fits it
with its terminating NUL, that is, has at most 1023 bytes. -/
def fits_temp_buf (line : Str) : Bool :=
  (temp_buf_tokens line).all (fun t => decide (t.length < temp_buf_size))

mutual
/-- The argument loop of `parse_command` read over the list of the tokens
that are still to come, all of which fit `temp_buf`. -/
def parse_toks : List Str → command_t → Nat → command_t
  | [], command, arg_index => finalize_args command arg_index
  | t :: ts, command, arg_index =>
    if t = ['|'] then
      finalize_args { command with next := some (parse_cmd_toks ts command_zero) } arg_index
    else parse_toks ts (handle_arg t command arg_index).1 (handle_arg t command arg_index).2
/-- The function `parse_command` read over the list of the tokens of its
buffer, all of which fit `temp_buf`. -/
def parse_cmd_toks : List Str → command_t → command_t
  | [], command => finalize_args { command with name := [], args := [] } 0
  | t :: ts, command =>
    let command :=
      if last_char (t :: ts) = some '?' then { command with auto_complete := true }
      else command
    let command :=
      if last_char (t :: ts) = some '&' then { command with background := true }
      else command
    parse_toks ts { command with name := t, args := [] } 0
end

/-- The chain `parse_command` builds from a buffer whose tokens fit
`temp_buf`. -/
def parse_line (buf : Str) (command : command_t) : command_t :=
  parse_cmd_toks (tokens is_splitter buf) command

/-- The argument loop over tokens none of which is the pipe: the command and
`arg_index` after the last of them. -/
def collect (xs : List Str) (command : command_t) (arg_index : Nat) : command_t × Nat :=
  xs.foldl (fun st t => handle_arg t st.1 st.2) (command, arg_index)

/-- A token that is stored as a positional argument: not the marker `&` and
not starting with `<` or `>`. -/
def is_positional (t : Str) : Bool :=
  decide (t ≠ ['&']) && decide (t.head? ≠ some '<') && decide (t.head? ≠ some '>')

/-- Removal of one layer of wrapping quotes. -/
def strip_quotes (t : Str) : Str :=
  if quote_wrapped t then (t.dropLast).drop 1 else t

/-- The effect of one token on the three redirection slots. -/
def redirect_token (rs : List (Option Str)) (t : Str) : List (Option Str) :=
  if t = ['&'] then rs
  else if t.head? = some '>' then
    (if t.length > 1 ∧ t.get? 1 = some '>' then rs.set 2 (some (t.drop 2))
     else rs.set 1 (some (t.drop 1)))
  else if t.head? = some '<' then rs.set 0 (some (t.drop 1))
  else rs

/-- What a stage carries besides its flags and its link: name, argument
vector and redirection slots. -/
def stage_view (c : command_t) : Str × List (Option Str) × List (Option Str) :=
  (c.name, c.args, c.redirects)

/-- The non-empty `:`-separated components of a `PATH` value. -/
def path_components (path_env : Str) : List Str :=
  tokens (fun c => c == ':') path_env

/-! ## Notions used to state the properties of a run -/

/-- Whether every stage of a chain names an external command. -/
def all_external (c : command_t) : Bool :=
  (stages c).all (fun s => is_external s.name)

/-- The exit status of the process that runs the rightmost stage of a chain
through the single-stage path. -/
def rightmost_status (w : World) (c : command_t) : Int :=
  ((stages c).getLast?.map (fun s => (child_body w s).2)).getD 0

/-- Whether a call creates a pipe or a process. -/
def is_pipe_or_fork (e : Ev) : Bool :=
  match e with
  | Ev.pipe => true
  | Ev.fork _ => true
  | _ => false

/-- Whether a call is a `waitpid`. -/
def is_waitpid (e : Ev) : Bool :=
  match e with
  | Ev.waitpid _ _ => true
  | _ => false

/-- The run environment of the examples: `PATH=/a:/b`, only `/b/tool`
executable, files open, programs exit with 0. -/
def world_ab : World :=
  { path_env := some "/a:/b".toList
    access_x := fun p => p == "/b/tool".toList
    open_ok := fun _ _ => true
    chdir_ok := fun _ => true
    pipe_ok := fun _ => true
    execv_status := fun _ _ => some 0 }

/-- A run environment in which every path is executable, every file opens
and every program exits with 0, with `PATH=/bin`. -/
def world_bin : World :=
  { path_env := some "/bin".toList
    access_x := fun _ => true
    open_ok := fun _ _ => true
    chdir_ok := fun _ => true
    pipe_ok := fun _ => true
    execv_status := fun _ _ => some 0 }

/-! ## Tokenizer lemmas -/

theorem splitOnP_append_cons (d : Char → Bool) (x : Str) (c : Char) (y : Str) (h : d c = true) :
    (x ++ c :: y).splitOnP d = x.splitOnP d ++ y.splitOnP d := by
  induction x with
  | nil => simp [List.splitOnP_cons, h, List.splitOnP_nil]
  | cons a x ih =>
    simp only [List.cons_append, List.splitOnP_cons, ih]
    split
    · rfl
    · cases hx : List.splitOnP d x with
      | nil => exact absurd hx (List.splitOnP_ne_nil d x)
      | cons u us => simp [List.modifyHead]

theorem tokens_nil (d : Char → Bool) : tokens d [] = [] := by
  simp [tokens, List.splitOnP_nil]

theorem tokens_cons_delim (d : Char → Bool) (c : Char) (s : Str) (h : d c = true) :
    tokens d (c :: s) = tokens d s := by
  simp [tokens, List.splitOnP_cons, h]

theorem tokens_append_delim (d : Char → Bool) (x : Str) (c : Char) (y : Str) (h : d c = true) :
    tokens d (x ++ c :: y) = tokens d x ++ tokens d y := by
  simp [tokens, splitOnP_append_cons d x c y h]

theorem tokens_single (d : Char → Bool) (t : Str) (h : ∀ c ∈ t, d c = false) (ht : t ≠ []) :
    tokens d t = [t] := by
  have : t.splitOnP d = [t] := List.splitOnP_eq_single d t (by simpa using h)
  simp [tokens, this, ht]

theorem tokens_dropWhile (d : Char → Bool) (s : Str) :
    tokens d (s.dropWhile d) = tokens d s := by
  induction s with
  | nil => rfl
  | cons a s ih =>
    by_cases h : d a = true
    · rw [List.dropWhile_cons_of_pos h, ih, tokens_cons_delim d a s h]
    · rw [List.dropWhile_cons_of_neg h]

theorem tokens_all_delim (d : Char → Bool) (w : Str) (h : ∀ c ∈ w, d c = true) :
    tokens d w = [] := by
  induction w with
  | nil => exact tokens_nil d
  | cons a w ih =>
    rw [tokens_cons_delim d a w (h a (List.mem_cons_self a w))]
    exact ih (fun c hc => h c (List.mem_cons_of_mem a hc))

/-- One step of `strtok_r` against the token list. -/
theorem strtok_r_tokens (d : Char → Bool) (s : Str) :
    (strtok_r d s = (none, []) ∧ tokens d s = []) ∨
    ∃ t rest, strtok_r d s = (some t, rest) ∧ tokens d s = t :: tokens d rest ∧
      t ≠ [] ∧ (∀ c ∈ t, d c = false) ∧ rest.length < s.length := by
  by_cases h1 : s.dropWhile d = []
  · left
    refine ⟨by simp [strtok_r, h1], ?_⟩
    rw [← tokens_dropWhile, h1, tokens_nil]
  · right
    have hsplit := List.takeWhile_append_dropWhile (fun c => !d c) (s.dropWhile d)
    have htne : (s.dropWhile d).takeWhile (fun c => !d c) ≠ [] := by
      cases hs : s.dropWhile d with
      | nil => exact absurd hs h1
      | cons a r =>
        have ha : ¬ d a = true := by
          have := List.head_dropWhile_not d s (by rw [hs]; simp)
          simpa [hs] using this
        simp [List.takeWhile_cons, ha]
    have htnd : ∀ c ∈ (s.dropWhile d).takeWhile (fun c => !d c), d c = false := by
      intro c hc
      have := List.mem_takeWhile_imp hc
      simpa using this
    have hlen : (s.dropWhile d).length ≤ s.length := (List.dropWhile_sublist d).length_le
    refine ⟨(s.dropWhile d).takeWhile (fun c => !d c),
      ((s.dropWhile d).dropWhile (fun c => !d c)).drop 1, by simp [strtok_r, h1], ?_, htne, htnd, ?_⟩
    · rw [← tokens_dropWhile d s]
      cases hr : (s.dropWhile d).dropWhile (fun c => !d c) with
      | nil =>
        rw [hr] at hsplit
        simp only [List.append_nil] at hsplit
        simp only [List.drop_nil, tokens_nil]
        rw [hsplit]
        rw [hsplit] at htnd htne
        exact tokens_single d _ htnd htne
      | cons a r =>
        have ha : d a = true := by
          have := List.head_dropWhile_not (fun c => !d c) (s.dropWhile d) (by rw [hr]; simp)
          simpa [hr] using this
        rw [hr] at hsplit
        conv_lhs => rw [← hsplit]
        rw [tokens_append_delim d _ a r ha, tokens_single d _ htnd htne]
        simp
    · have h2 : ((s.dropWhile d).dropWhile (fun c => !d c)).length +
          ((s.dropWhile d).takeWhile (fun c => !d c)).length = (s.dropWhile d).length := by
        have := congrArg List.length hsplit
        rw [List.length_append] at this
        omega
      have h3 : 0 < ((s.dropWhile d).takeWhile (fun c => !d c)).length :=
        List.length_pos.mpr htne
      have h4 : (((s.dropWhile d).dropWhile (fun c => !d c)).drop 1).length ≤
          ((s.dropWhile d).dropWhile (fun c => !d c)).length := by simp
      omega

theorem tokens_rdropWhile (d : Char → Bool) (s : Str) :
    tokens d (s.rdropWhile d) = tokens d s := by
  induction s using List.reverseRecOn with
  | nil => simp [List.rdropWhile_nil]
  | append_singleton x c ih =>
    by_cases h : d c = true
    · rw [List.rdropWhile_concat_pos _ _ _ h, ih, tokens_append_delim d x c [] h, tokens_nil,
        List.append_nil]
    · rw [List.rdropWhile_concat_neg _ _ _ h]

theorem tokens_ne_nil_of_mem (d : Char → Bool) (s t : Str) (h : t ∈ tokens d s) : t ≠ [] := by
  have := (List.mem_filter.mp h).2
  simpa using this

theorem tokens_flatten (d : Char → Bool) (s : Str) :
    (tokens d s).flatten = s.filter (fun c => !d c) := by
  induction s with
  | nil => simp [tokens_nil]
  | cons a s ih =>
    by_cases h : d a = true
    · rw [tokens_cons_delim d a s h, ih]
      simp [List.filter_cons, h]
    · have hf : (a :: s).filter (fun c => !d c) = a :: s.filter (fun c => !d c) := by
        simp [List.filter_cons, h]
      rw [hf, ← ih]
      unfold tokens
      rw [List.splitOnP_cons, if_neg h]
      cases hx : List.splitOnP d s with
      | nil => exact absurd hx (List.splitOnP_ne_nil d s)
      | cons u us =>
        by_cases hu : u = []
        · simp [List.modifyHead, hu, List.filter_cons]
        · simp [List.modifyHead, hu, List.filter_cons]

theorem flatten_getLast? (L : List Str) (h : ∀ t ∈ L, t ≠ []) :
    L.flatten.getLast? = last_char L := by
  induction L with
  | nil => rfl
  | cons t L ih =>
    have ih2 := ih (fun u hu => h u (List.mem_cons_of_mem t hu))
    cases L with
    | nil => simp [last_char]
    | cons u L =>
      have hne : (u :: L).flatten ≠ [] := by
        have := h u (by simp)
        simp [this]
      rw [List.flatten_cons, List.getLast?_append_of_ne_nil _ hne, ih2]
      simp [last_char, List.getLast?_cons_cons]

theorem last_char_tokens (s : Str) : last_char (tokens is_splitter s) = last_non_ws s := by
  rw [← flatten_getLast? _ (fun t ht => tokens_ne_nil_of_mem _ s t ht), tokens_flatten]
  rfl

theorem rdropWhile_getLast? (d : Char → Bool) (s : Str) :
    (s.rdropWhile d).getLast? = (s.filter (fun c => !d c)).getLast? := by
  induction s using List.reverseRecOn with
  | nil => simp [List.rdropWhile_nil]
  | append_singleton x c ih =>
    by_cases h : d c = true
    · rw [List.rdropWhile_concat_pos _ _ _ h, ih]
      simp [List.filter_append, h]
    · rw [List.rdropWhile_concat_neg _ _ _ h]
      simp [List.filter_append, h]

theorem filter_dropWhile (d : Char → Bool) (s : Str) :
    (s.dropWhile d).filter (fun c => !d c) = s.filter (fun c => !d c) := by
  induction s with
  | nil => rfl
  | cons a s ih =>
    by_cases h : d a = true
    · rw [List.dropWhile_cons_of_pos h, ih]
      simp [List.filter_cons, h]
    · rw [List.dropWhile_cons_of_neg h]

/-- The last character of the trimmed buffer is the last character of the
last token. -/
theorem trimmed_getLast? (s : Str) :
    ((s.dropWhile is_splitter).rdropWhile is_splitter).getLast? =
      last_char (tokens is_splitter s) := by
  rw [rdropWhile_getLast?, filter_dropWhile, last_char_tokens]
  rfl

theorem tokens_trimmed (s : Str) :
    tokens is_splitter ((s.dropWhile is_splitter).rdropWhile is_splitter) =
      tokens is_splitter s := by
  rw [tokens_rdropWhile, tokens_dropWhile]

theorem trim_token (t : Str) (h : ∀ c ∈ t, is_splitter c = false) :
    (t.dropWhile is_splitter).rdropWhile is_splitter = t := by
  have h1 : t.dropWhile is_splitter = t := by
    cases t with
    | nil => rfl
    | cons a r => exact List.dropWhile_cons_of_neg (by simp [h a (List.mem_cons_self a r)])
  rw [h1, List.rdropWhile_eq_self_iff]
  intro hl
  simp [h _ (List.getLast_mem hl)]

theorem rdropWhile_isPrefix (s : Str) : s.rdropWhile is_splitter <+: s := by
  exact List.rdropWhile_prefix is_splitter s

theorem trimmed_length_le (s : Str) :
    ((s.dropWhile is_splitter).rdropWhile is_splitter).length ≤ s.length :=
  Nat.le_trans (List.rdropWhile_prefix is_splitter (s.dropWhile is_splitter)).length_le
    (List.dropWhile_sublist is_splitter).length_le

theorem loop_tokens_cons (t : Str) (ts : List Str) :
    loop_tokens (t :: ts) = t :: (if t = ['|'] then stage_tokens ts else loop_tokens ts) := by
  rw [loop_tokens]

theorem stage_tokens_cons (t : Str) (ts : List Str) : stage_tokens (t :: ts) = loop_tokens ts := by
  rw [stage_tokens]

theorem stage_tokens_nil : stage_tokens [] = [] := by
  rw [stage_tokens]

theorem loop_tokens_nil : loop_tokens [] = [] := by
  rw [loop_tokens]

/-- With enough fuel the parser of the buffer is the parser of its tokens
when every token copied into `temp_buf` fits, and has no result
otherwise. -/
theorem parse_bridge (f : Nat) :
    (∀ s c i, 2 * s.length + 1 ≤ f →
      parse_args f s c i =
        if (loop_tokens (tokens is_splitter s)).all
            (fun t => decide (t.length < temp_buf_size)) = true
        then some (parse_toks (tokens is_splitter s) c i) else none) ∧
    (∀ buf c, 2 * buf.length + 2 ≤ f →
      parse_command_fuel f buf c =
        if (stage_tokens (tokens is_splitter buf)).all
            (fun t => decide (t.length < temp_buf_size)) = true
        then some (parse_cmd_toks (tokens is_splitter buf) c) else none) := by
  induction f with
  | zero => exact ⟨fun s c i h => by omega, fun buf c h => by omega⟩
  | succ f ih =>
    refine ⟨fun s c i h => ?_, fun buf c h => ?_⟩
    · rw [parse_args]
      rcases strtok_r_tokens is_splitter s with ⟨h1, h2⟩ | ⟨t, rest, h1, h2, h3, h4, h5⟩
      · rw [h1, h2, parse_toks, loop_tokens_nil]
        rfl
      · have hl : t.length ≠ 0 := fun h0 => h3 (List.length_eq_zero.mp h0)
        rw [h1, h2, loop_tokens_cons, List.all_cons]
        by_cases hfit : t.length < temp_buf_size
        · have hno : ¬ temp_buf_size < t.length + 1 := by omega
          simp only [hno, if_false, trim_token t h4, hl]
          rw [parse_toks]
          by_cases hp : t = ['|']
          · have hlen : 2 * (rest.dropWhile is_splitter).length + 2 ≤ f := by
              have := (List.dropWhile_sublist is_splitter (l := rest)).length_le
              omega
            simp only [hp, if_true]
            rw [ih.2 _ _ hlen, tokens_dropWhile]
            by_cases hall : (stage_tokens (tokens is_splitter rest)).all
                (fun t => decide (t.length < temp_buf_size)) = true
            · have h1024 : decide (['|'].length < temp_buf_size) = true := by decide
              rw [if_pos hall]
              simp only [h1024, hall, Bool.and_self, if_true]
            · rw [if_neg hall]
              simp only [Bool.not_eq_true] at hall
              simp only [hall, Bool.and_false, Bool.false_eq_true, if_false]
          · simp only [hp, if_false]
            rw [ih.1 rest _ _ (by omega)]
            have hd : decide (t.length < temp_buf_size) = true := decide_eq_true hfit
            simp only [hd, Bool.true_and]
        · have hyes : temp_buf_size < t.length + 1 := by omega
          have hd : decide (t.length < temp_buf_size) = false := decide_eq_false hfit
          simp only [hyes, if_true, hd, Bool.false_and, Bool.false_eq_true, if_false]
    · rw [parse_command_fuel]
      have hT := tokens_trimmed buf
      have hL := trimmed_getLast? buf
      have hlen := trimmed_length_le buf
      generalize (buf.dropWhile is_splitter).rdropWhile is_splitter = b at hT hL hlen
      simp only [hL]
      rcases strtok_r_tokens is_splitter b with ⟨h1, h2⟩ | ⟨t, rest, h1, h2, h3, h4, h5⟩
      · rw [h1, ← hT, h2]
        simp only [last_char, List.getLast?_nil, Option.bind_none, Option.getD_none]
        rw [ih.1 [] _ _ (by simp; omega), tokens_nil, parse_toks, parse_cmd_toks,
          loop_tokens_nil, stage_tokens_nil]
        simp
      · rw [h1, ← hT, h2, parse_cmd_toks, stage_tokens_cons]
        simp only [Option.getD_some]
        rw [ih.1 rest _ _ (by omega)]

theorem parse_line_eq (buf : Str) (c : command_t) :
    parse_line buf c = parse_cmd_toks (tokens is_splitter buf) c := rfl

/-- The result of `parse_command` on a buffer whose tokens fit `temp_buf`. -/
theorem parse_command_fits (buf : Str) (c : command_t) (h : fits_temp_buf buf = true) :
    parse_command buf c = some (parse_line buf c) := by
  have := (parse_bridge _).2 buf c (Nat.le_refl _)
  unfold fits_temp_buf temp_buf_tokens at h
  rw [h, if_pos rfl] at this
  exact this

/-- There is no result on a buffer one of whose tokens overflows
`temp_buf`. -/
theorem parse_command_overflow (buf : Str) (c : command_t) (h : fits_temp_buf buf = false) :
    parse_command buf c = none := by
  have := (parse_bridge _).2 buf c (Nat.le_refl _)
  unfold fits_temp_buf temp_buf_tokens at h
  rw [h] at this
  exact this

/-! ## The argument vector -/

theorem shift_args_append (A : List (Option Str)) :
    ∀ (x : Option Str) (rest : List (Option Str)),
      ∃ h, shift_args A.length (A ++ x :: rest) = h :: (A ++ rest) := by
  induction A using List.reverseRecOn with
  | nil => intro x rest; exact ⟨x, rfl⟩
  | append_singleton A a ih =>
    intro x rest
    obtain ⟨h, hh⟩ := ih a (a :: rest)
    refine ⟨h, ?_⟩
    have hlen : (A ++ [a]).length = A.length + 1 := by simp
    rw [hlen, shift_args]
    have hget : (A ++ [a] ++ x :: rest).getD A.length none = a := by
      rw [List.append_assoc, List.getD_eq_getElem?_getD, List.getElem?_append_right (Nat.le_refl _)]
      simp
    have hset : (A ++ [a] ++ x :: rest).set (A.length + 1) a = A ++ a :: a :: rest := by
      rw [List.set_append_right _ _ (by simp)]
      simp
    rw [hget, hset, hh]
    simp

theorem finalize_args_args (c : command_t) (i : Nat) (h : c.args.length = i) :
    (finalize_args c i).args = some c.name :: (c.args ++ [none]) := by
  obtain ⟨x, hx⟩ := shift_args_append c.args none [none]
  have hr : realloc c.args (i + 2) = c.args ++ [none, none] := by
    unfold realloc
    rw [List.take_of_length_le (by omega)]
    have : i + 2 - c.args.length = 2 := by omega
    rw [this]
    rfl
  simp only [finalize_args, hr, Nat.add_sub_cancel]
  rw [← h, hx, List.set_cons_zero]
  have : c.args.length + 2 - 1 = c.args.length + 1 := by omega
  rw [this, List.set_cons_succ, List.set_append_right _ _ (Nat.le_refl _)]
  simp

theorem finalize_args_fields (c : command_t) (i : Nat) :
    (finalize_args c i).name = c.name ∧ (finalize_args c i).background = c.background ∧
    (finalize_args c i).auto_complete = c.auto_complete ∧
    (finalize_args c i).arg_count = i + 2 ∧
    (finalize_args c i).redirects = c.redirects ∧ (finalize_args c i).next = c.next :=
  ⟨rfl, rfl, rfl, rfl, rfl, rfl⟩

/-! ## One token and a run of tokens -/

theorem handle_arg_fields (t : Str) (c : command_t) (i : Nat) :
    (handle_arg t c i).1.name = c.name ∧ (handle_arg t c i).1.background = c.background ∧
    (handle_arg t c i).1.auto_complete = c.auto_complete ∧
    (handle_arg t c i).1.next = c.next ∧
    (handle_arg t c i).1.redirects = redirect_token c.redirects t ∧
    (handle_arg t c i).1.args =
      c.args ++ (if is_positional t then [some (strip_quotes t)] else []) ∧
    (handle_arg t c i).2 = i + (if is_positional t then 1 else 0) := by
  unfold handle_arg redirect_token is_positional strip_quotes
  by_cases h1 : t = ['&']
  · simp [h1]
  · by_cases h2 : t.head? = some '>'
    · have h5 : ¬ t.head? = some '<' := by rw [h2]; decide
      by_cases h3 : t.length > 1 ∧ t.get? 1 = some '>'
      · simp only [if_neg h1, if_pos h2, if_pos h3, if_neg h5]
        simp [h1, h2]
      · simp only [if_neg h1, if_pos h2, if_neg h3, if_neg h5]
        simp [h1, h2]
    · by_cases h4 : t.head? = some '<'
      · simp only [if_neg h1, if_neg h2, if_pos h4]
        simp [h1, h4]
      · simp only [if_neg h1, if_neg h2, if_neg h4]
        simp [h1, h2, h4]

theorem collect_cons (t : Str) (xs : List Str) (c : command_t) (i : Nat) :
    collect (t :: xs) c i = collect xs (handle_arg t c i).1 (handle_arg t c i).2 := rfl

theorem collect_fields (xs : List Str) :
    ∀ (c : command_t) (i : Nat),
      (collect xs c i).1.name = c.name ∧ (collect xs c i).1.background = c.background ∧
      (collect xs c i).1.auto_complete = c.auto_complete ∧
      (collect xs c i).1.next = c.next ∧
      (collect xs c i).1.redirects = xs.foldl redirect_token c.redirects ∧
      (collect xs c i).1.args =
        c.args ++ (xs.filter is_positional).map (fun t => some (strip_quotes t)) ∧
      (collect xs c i).2 = i + (xs.filter is_positional).length := by
  induction xs with
  | nil => intro c i; simp [collect]
  | cons t xs ih =>
    intro c i
    obtain ⟨h1, h2, h3, h4, h5, h6, h7⟩ := handle_arg_fields t c i
    obtain ⟨g1, g2, g3, g4, g5, g6, g7⟩ := ih (handle_arg t c i).1 (handle_arg t c i).2
    rw [collect_cons]
    refine ⟨g1.trans h1, g2.trans h2, g3.trans h3, g4.trans h4, ?_, ?_, ?_⟩
    · rw [g5, h5]; rfl
    · rw [g6, h6]
      by_cases hp : is_positional t = true
      · simp [hp, List.filter_cons]
      · simp [hp, List.filter_cons]
    · rw [g7, h7]
      by_cases hp : is_positional t = true
      · simp [hp, List.filter_cons]; omega
      · simp [hp, List.filter_cons]

/-- The argument loop either meets no pipe token, or stops at the first one
and hands the tokens after it to a fresh parse. -/
theorem parse_toks_cases (ts : List Str) :
    ∀ (c : command_t) (i : Nat),
      (['|'] ∉ ts ∧
        parse_toks ts c i = finalize_args (collect ts c i).1 (collect ts c i).2) ∨
      (∃ xs ys, ts = xs ++ ['|'] :: ys ∧ ['|'] ∉ xs ∧
        parse_toks ts c i =
          finalize_args
            { (collect xs c i).1 with next := some (parse_cmd_toks ys command_zero) }
            (collect xs c i).2) := by
  induction ts with
  | nil => intro c i; left; exact ⟨by simp, by rw [parse_toks]; rfl⟩
  | cons t ts ih =>
    intro c i
    by_cases hp : t = ['|']
    · right
      refine ⟨[], ts, by simp [hp], by simp, ?_⟩
      rw [parse_toks, if_pos hp]
      rfl
    · rw [parse_toks, if_neg hp]
      rcases ih (handle_arg t c i).1 (handle_arg t c i).2 with ⟨h1, h2⟩ | ⟨xs, ys, h1, h2, h3⟩
      · left
        refine ⟨?_, by rw [h2, collect_cons]⟩
        intro hmem
        rcases List.mem_cons.mp hmem with h | h
        · exact hp h.symm
        · exact h1 h
      · right
        refine ⟨t :: xs, ys, by simp [h1], ?_, by rw [h3, collect_cons]⟩
        intro hmem
        rcases List.mem_cons.mp hmem with h | h
        · exact hp h.symm
        · exact h2 h

theorem stages_eq (c : command_t) :
    stages c = c :: (match c.next with
      | none => []
      | some n => stages n) := by
  rcases c with ⟨n, b, a, k, as, rs, nx⟩
  cases nx with
  | none => rfl
  | some d => rw [stages]

theorem stages_of_next_none (c : command_t) (h : c.next = none) : stages c = [c] := by
  rw [stages_eq, h]

theorem stages_of_next_some (c n : command_t) (h : c.next = some n) :
    stages c = c :: stages n := by
  rw [stages_eq, h]

theorem parse_cmd_toks_nil (c : command_t) :
    parse_cmd_toks [] c = finalize_args { c with name := [], args := [] } 0 := by
  rw [parse_cmd_toks]

theorem parse_cmd_toks_cons (t : Str) (ts : List Str) (c : command_t) :
    parse_cmd_toks (t :: ts) c =
      parse_toks ts
        { c with
          name := t
          args := []
          auto_complete := c.auto_complete || decide (last_char (t :: ts) = some '?')
          background := c.background || decide (last_char (t :: ts) = some '&') } 0 := by
  rw [parse_cmd_toks]
  by_cases h1 : last_char (t :: ts) = some '?'
  · have h2 : ¬ last_char (t :: ts) = some '&' := by rw [h1]; decide
    simp [h1]
  · by_cases h2 : last_char (t :: ts) = some '&'
    · simp [h2]
    · simp [h1, h2]

theorem tokens_ws_prefix (d : Char → Bool) (w y : Str) (h : ∀ c ∈ w, d c = true) :
    tokens d (w ++ y) = tokens d y := by
  induction w with
  | nil => rfl
  | cons a w ih =>
    rw [List.cons_append, tokens_cons_delim d a _ (h a (List.mem_cons_self a w))]
    exact ih (fun c hc => h c (List.mem_cons_of_mem a hc))

theorem tokens_append_ws (d : Char → Bool) (x w y : Str) (hw : w ≠ [])
    (h : ∀ c ∈ w, d c = true) : tokens d (x ++ w ++ y) = tokens d x ++ tokens d y := by
  cases w with
  | nil => exact absurd rfl hw
  | cons a w =>
    rw [List.append_assoc, List.cons_append,
      tokens_append_delim d x a _ (h a (List.mem_cons_self a w)),
      tokens_ws_prefix d w y (fun c hc => h c (List.mem_cons_of_mem a hc))]

/-- The stage built from tokens without a pipe token. -/
theorem parse_toks_no_pipe (xs : List Str) (c : command_t) (i : Nat)
    (hnp : ['|'] ∉ xs) (hi : c.args.length = i) :
    (parse_toks xs c i).name = c.name ∧
    (parse_toks xs c i).background = c.background ∧
    (parse_toks xs c i).auto_complete = c.auto_complete ∧
    (parse_toks xs c i).arg_count = i + (xs.filter is_positional).length + 2 ∧
    (parse_toks xs c i).args =
      some c.name ::
        (c.args ++ (xs.filter is_positional).map (fun t => some (strip_quotes t)) ++ [none]) ∧
    (parse_toks xs c i).redirects = xs.foldl redirect_token c.redirects ∧
    (parse_toks xs c i).next = c.next := by
  obtain ⟨g1, g2, g3, g4, g5, g6, g7⟩ := collect_fields xs c i
  have hlen : (collect xs c i).1.args.length = (collect xs c i).2 := by
    rw [g6, g7]; simp [hi]
  rcases parse_toks_cases xs c i with ⟨_, h2⟩ | ⟨ys, zs, h1, _, _⟩
  · rw [h2]
    obtain ⟨f1, f2, f3, f4, f5, f6⟩ := finalize_args_fields (collect xs c i).1 (collect xs c i).2
    refine ⟨f1.trans g1, f2.trans g2, f3.trans g3, by rw [f4, g7], ?_, f5.trans g5, f6.trans g4⟩
    rw [finalize_args_args _ _ hlen, g1, g6]
  · exact absurd (by rw [h1]; simp) hnp

/-- The stage built from tokens up to the first pipe token. -/
theorem parse_toks_pipe (xs ys : List Str) (c : command_t) (i : Nat)
    (hnp : ['|'] ∉ xs) (hi : c.args.length = i) :
    (parse_toks (xs ++ ['|'] :: ys) c i).name = c.name ∧
    (parse_toks (xs ++ ['|'] :: ys) c i).background = c.background ∧
    (parse_toks (xs ++ ['|'] :: ys) c i).auto_complete = c.auto_complete ∧
    (parse_toks (xs ++ ['|'] :: ys) c i).arg_count = i + (xs.filter is_positional).length + 2 ∧
    (parse_toks (xs ++ ['|'] :: ys) c i).args =
      some c.name ::
        (c.args ++ (xs.filter is_positional).map (fun t => some (strip_quotes t)) ++ [none]) ∧
    (parse_toks (xs ++ ['|'] :: ys) c i).redirects = xs.foldl redirect_token c.redirects ∧
    (parse_toks (xs ++ ['|'] :: ys) c i).next = some (parse_cmd_toks ys command_zero) := by
  have key : ∀ (zs : List Str) (c : command_t) (i : Nat), ['|'] ∉ zs →
      parse_toks (zs ++ ['|'] :: ys) c i =
        finalize_args
          { (collect zs c i).1 with next := some (parse_cmd_toks ys command_zero) }
          (collect zs c i).2 := by
    intro zs
    induction zs with
    | nil => intro c i _; rw [List.nil_append, parse_toks, if_pos rfl]; rfl
    | cons t zs ih =>
      intro c i hz
      have ht : t ≠ ['|'] := fun h => hz (by simp [h])
      have hz2 : ['|'] ∉ zs := fun h => hz (List.mem_cons_of_mem t h)
      rw [List.cons_append, parse_toks, if_neg ht, ih _ _ hz2, collect_cons]
  obtain ⟨g1, g2, g3, g4, g5, g6, g7⟩ := collect_fields xs c i
  have hlen : (collect xs c i).1.args.length = (collect xs c i).2 := by
    rw [g6, g7]; simp [hi]
  rw [key xs c i hnp]
  refine ⟨g1, g2, g3, ?_, ?_, g5, rfl⟩
  · show (collect xs c i).2 + 2 = _
    rw [g7]
  · have := finalize_args_args
      { (collect xs c i).1 with next := some (parse_cmd_toks ys command_zero) }
      (collect xs c i).2 hlen
    rw [this]
    show some (collect xs c i).1.name :: ((collect xs c i).1.args ++ [none]) = _
    rw [g1, g6]

/-- The chain built from the line `echo "s"`, or the same with single quotes,
for a non-empty `s` without a space or a tab: a single stage whose only
positional argument is `s`. -/
theorem parse_line_quoted_word (s : Str) (q : Char) (hq : q = '"' ∨ q = '\'')
    (hs : s ≠ []) (_hnq : ∀ c ∈ s, c ≠ '"' ∧ c ≠ '\'')
    (hws : ∀ c ∈ s, is_splitter c = false) :
    (parse_line ("echo ".toList ++ q :: (s ++ [q])) command_zero).name = "echo".toList ∧
    (parse_line ("echo ".toList ++ q :: (s ++ [q])) command_zero).args =
      [some "echo".toList, some s, none] ∧
    (parse_line ("echo ".toList ++ q :: (s ++ [q])) command_zero).arg_count = 3 ∧
    (parse_line ("echo ".toList ++ q :: (s ++ [q])) command_zero).next = none := by
  have hqws : is_splitter q = false := by
    rcases hq with h | h <;> subst h <;> decide
  have htws : ∀ c ∈ q :: (s ++ [q]), is_splitter c = false := by
    intro c hc
    simp only [List.mem_cons, List.mem_append, List.mem_singleton, List.not_mem_nil,
      or_false] at hc
    rcases hc with h | h | h
    · rw [h]; exact hqws
    · exact hws c h
    · rw [h]; exact hqws
  have hT : tokens is_splitter ("echo ".toList ++ q :: (s ++ [q])) =
      ["echo".toList, q :: (s ++ [q])] := by
    have h1 := tokens_append_ws is_splitter "echo".toList [' '] (q :: (s ++ [q])) (by simp)
      (by intro c hc; simp at hc; subst hc; decide)
    have h2 : tokens is_splitter "echo".toList = ["echo".toList] := by decide
    rw [h2, tokens_single _ _ htws (by simp)] at h1
    exact h1
  obtain ⟨a, r, hs2⟩ : ∃ a r, s = a :: r := by
    cases s with
    | nil => exact absurd rfl hs
    | cons a r => exact ⟨a, r, rfl⟩
  have hne : q :: (s ++ [q]) ≠ ['|'] := by
    rw [hs2]; simp
  have hpos : is_positional (q :: (s ++ [q])) = true := by
    have : q ≠ '<' ∧ q ≠ '>' := by
      rcases hq with h | h <;> subst h <;> decide
    rw [hs2]
    simp [is_positional, this.1, this.2]
  have hstrip : strip_quotes (q :: (s ++ [q])) = s := by
    have hd : (q :: (s ++ [q])).dropLast = q :: s := by
      have : q :: (s ++ [q]) = (q :: s) ++ [q] := by simp
      rw [this, List.dropLast_concat]
    have hw : quote_wrapped (q :: (s ++ [q])) = true := by
      have hl : (q :: (s ++ [q])).getLast? = some q := by
        have : q :: (s ++ [q]) = (q :: s) ++ [q] := by simp
        rw [this, List.getLast?_concat]
      unfold quote_wrapped
      rw [hl]
      rcases hq with h | h <;> subst h <;> simp [hs2]
    unfold strip_quotes
    rw [if_pos hw, hd]
    rfl
  rw [parse_line_eq, hT, parse_cmd_toks_cons]
  obtain ⟨p1, _, _, p4, p5, _, p7⟩ := parse_toks_no_pipe [q :: (s ++ [q])]
    { command_zero with
      name := "echo".toList
      args := []
      auto_complete := command_zero.auto_complete ||
        decide (last_char ["echo".toList, q :: (s ++ [q])] = some '?')
      background := command_zero.background ||
        decide (last_char ["echo".toList, q :: (s ++ [q])] = some '&') }
    0 (by simp [hne.symm]) rfl
  refine ⟨p1, ?_, ?_, p7⟩
  · rw [p5]
    simp [List.filter_cons, hpos, hstrip]
  · rw [p4]
    simp [List.filter_cons, hpos]

/-- The chain built from the line `c <p >q`, each operator attached to its
path: a single stage with `redirect_input = p` and
`redirect_output_truncate = q`. -/
theorem parse_line_redirects (c p q : Str)
    (hc : c ≠ []) (hcw : ∀ x ∈ c, is_splitter x = false)
    (hp : p ≠ []) (hpw : ∀ x ∈ p, is_splitter x = false)
    (hq : q ≠ []) (hqw : ∀ x ∈ q, is_splitter x = false)
    (hq2 : q.head? ≠ some '>') :
    (parse_line (c ++ " <".toList ++ p ++ " >".toList ++ q) command_zero).name = c ∧
    (parse_line (c ++ " <".toList ++ p ++ " >".toList ++ q) command_zero).redirects =
      [some p, some q, none] ∧
    (parse_line (c ++ " <".toList ++ p ++ " >".toList ++ q) command_zero).next = none := by
  have hpw2 : ∀ x ∈ '<' :: p, is_splitter x = false := by
    intro x hx
    rcases List.mem_cons.mp hx with h | h
    · rw [h]; decide
    · exact hpw x h
  have hqw2 : ∀ x ∈ '>' :: q, is_splitter x = false := by
    intro x hx
    rcases List.mem_cons.mp hx with h | h
    · rw [h]; decide
    · exact hqw x h
  have hsp : ∀ x ∈ [' '], is_splitter x = true := by
    intro x hx; simp at hx; subst hx; decide
  have hT : tokens is_splitter (c ++ " <".toList ++ p ++ " >".toList ++ q) =
      [c, '<' :: p, '>' :: q] := by
    have e : c ++ " <".toList ++ p ++ " >".toList ++ q =
        c ++ [' '] ++ (('<' :: p) ++ [' '] ++ ('>' :: q)) := by
      simp
    rw [e, tokens_append_ws _ _ _ _ (by simp) hsp, tokens_append_ws _ _ _ _ (by simp) hsp,
      tokens_single _ _ hcw hc, tokens_single _ _ hpw2 (by simp),
      tokens_single _ _ hqw2 (by simp)]
    rfl
  obtain ⟨a, r, hp2⟩ : ∃ a r, p = a :: r := by
    cases p with
    | nil => exact absurd rfl hp
    | cons a r => exact ⟨a, r, rfl⟩
  obtain ⟨b, u, hq3⟩ : ∃ b u, q = b :: u := by
    cases q with
    | nil => exact absurd rfl hq
    | cons b u => exact ⟨b, u, rfl⟩
  have hb : b ≠ '>' := by
    intro h; apply hq2; rw [hq3, h]; rfl
  rw [parse_line_eq, hT, parse_cmd_toks_cons]
  obtain ⟨p1, _, _, _, _, p6, p7⟩ := parse_toks_no_pipe ['<' :: p, '>' :: q]
    { command_zero with
      name := c
      args := []
      auto_complete := command_zero.auto_complete ||
        decide (last_char [c, '<' :: p, '>' :: q] = some '?')
      background := command_zero.background ||
        decide (last_char [c, '<' :: p, '>' :: q] = some '&') }
    0 (by rw [hp2, hq3]; simp) rfl
  refine ⟨p1, ?_, p7⟩
  rw [p6, hp2, hq3]
  simp [redirect_token, command_zero, hb]

theorem tokens_ws_suffix (d : Char → Bool) (x w : Str) (h : ∀ c ∈ w, d c = true) :
    tokens d (x ++ w) = tokens d x := by
  cases w with
  | nil => rw [List.append_nil]
  | cons a w =>
    rw [tokens_append_delim d x a w (h a (List.mem_cons_self a w)),
      tokens_all_delim d w (fun c hc => h c (List.mem_cons_of_mem a hc)), List.append_nil]

theorem getLast?_tail_ne (a : Str) (as : List Str) (x : Str)
    (h : (a :: as).getLast? ≠ some x) : as.getLast? ≠ some x := by
  cases as with
  | nil => simp
  | cons b bs => rwa [List.getLast?_cons_cons] at h

theorem parse_toks_flags (ts : List Str) (c : command_t) (i : Nat) :
    (parse_toks ts c i).background = c.background ∧
    (parse_toks ts c i).auto_complete = c.auto_complete ∧
    (parse_toks ts c i).name = c.name := by
  rcases parse_toks_cases ts c i with ⟨_, h2⟩ | ⟨xs, ys, _, _, h3⟩
  · rw [h2]
    obtain ⟨g1, g2, g3, _⟩ := collect_fields ts c i
    exact ⟨g2, g3, g1⟩
  · rw [h3]
    obtain ⟨g1, g2, g3, _⟩ := collect_fields xs c i
    exact ⟨g2, g3, g1⟩

/-- A trailing marker token leaves every stage as it is, when the tokens
before it do not end with a pipe token. -/
theorem marker_token_views (n : Nat) :
    ∀ (ts : List Str), ts.length ≤ n → ts.getLast? ≠ some ['|'] →
    ∀ (c d : command_t) (i : Nat), c.name = d.name → c.args = d.args →
      c.redirects = d.redirects → c.next = none → d.next = none → c.args.length = i →
      (stages (parse_toks (ts ++ [['&']]) c i)).map stage_view =
        (stages (parse_toks ts d i)).map stage_view := by
  induction n with
  | zero =>
    intro ts hl _ c d i hn ha hr hc hd hi
    have hts : ts = [] := List.length_eq_zero.mp (Nat.le_zero.mp hl)
    subst hts
    obtain ⟨p1, _, _, _, p5, p6, p7⟩ := parse_toks_no_pipe ([] ++ [['&']]) c i (by decide) hi
    obtain ⟨q1, _, _, _, q5, q6, q7⟩ := parse_toks_no_pipe [] d i (by simp) (ha ▸ hi)
    rw [stages_of_next_none _ (p7.trans hc), stages_of_next_none _ (q7.trans hd)]
    simp only [List.map_cons, List.map_nil, stage_view, p1, p5, p6, q1, q5, q6, hn, ha, hr]
    rfl
  | succ n ih =>
    intro ts hl hlast c d i hn ha hr hc hd hi
    have hi2 : d.args.length = i := ha ▸ hi
    rcases parse_toks_cases ts d i with ⟨h1, _⟩ | ⟨xs, ys, h1, h2, _⟩
    · have h1b : ['|'] ∉ ts ++ [['&']] := by
        intro hm
        rcases List.mem_append.mp hm with h | h
        · exact h1 h
        · simp at h
      obtain ⟨p1, _, _, _, p5, p6, p7⟩ := parse_toks_no_pipe (ts ++ [['&']]) c i h1b hi
      obtain ⟨q1, _, _, _, q5, q6, q7⟩ := parse_toks_no_pipe ts d i h1 hi2
      rw [stages_of_next_none _ (p7.trans hc), stages_of_next_none _ (q7.trans hd)]
      have e1 : (ts ++ [['&']]).filter is_positional = ts.filter is_positional := by
        rw [List.filter_append]
        simp [is_positional]
      have e2 : ∀ rs : List (Option Str), (ts ++ [['&']]).foldl redirect_token rs =
          ts.foldl redirect_token rs := by
        intro rs
        rw [List.foldl_append]
        simp [redirect_token]
      simp only [List.map_cons, List.map_nil, stage_view, p1, p5, p6, q1, q5, q6, hn, ha, hr,
        e1, e2]
    · subst h1
      cases ys with
      | nil => exact absurd (by simp) hlast
      | cons y ys =>
        have e : xs ++ ['|'] :: y :: ys ++ [['&']] = xs ++ ['|'] :: (y :: (ys ++ [['&']])) := by
          simp
        rw [e]
        obtain ⟨p1, _, _, _, p5, p6, p7⟩ := parse_toks_pipe xs (y :: (ys ++ [['&']])) c i h2 hi
        obtain ⟨q1, _, _, _, q5, q6, q7⟩ := parse_toks_pipe xs (y :: ys) d i h2 hi2
        rw [stages_of_next_some _ _ p7, stages_of_next_some _ _ q7]
        have hys : ys.length ≤ n := by
          simp at hl; omega
        have hlast2 : ys.getLast? ≠ some ['|'] := by
          apply getLast?_tail_ne y
          intro h
          apply hlast
          rw [List.getLast?_append_of_ne_nil _ (by simp), List.getLast?_cons_cons]
          exact h
        have := ih ys hys hlast2
          { command_zero with
            name := y
            args := []
            auto_complete := command_zero.auto_complete ||
              decide (last_char (y :: (ys ++ [['&']])) = some '?')
            background := command_zero.background ||
              decide (last_char (y :: (ys ++ [['&']])) = some '&') }
          { command_zero with
            name := y
            args := []
            auto_complete := command_zero.auto_complete ||
              decide (last_char (y :: ys) = some '?')
            background := command_zero.background ||
              decide (last_char (y :: ys) = some '&') }
          0 rfl rfl rfl rfl rfl rfl
        rw [parse_cmd_toks_cons, parse_cmd_toks_cons, List.map_cons, List.map_cons, this]
        simp only [stage_view, p1, p5, p6, q1, q5, q6, hn, ha, hr]

/-- The chain built from a line whose last non-whitespace character is `&`:
`background` is set on the head stage, and when the marker is a token of its
own after a part `P` that has at least one token and does not end with a
pipe token, every stage has the name, argument vector and redirection slots
it has in the chain of `P`. -/
theorem parse_line_marker (line : Str) (h : last_non_ws line = some '&') :
    (parse_line line command_zero).background = true ∧
    ∀ (P w v : Str), line = P ++ w ++ '&' :: v → w ≠ [] →
      (∀ c ∈ w, is_splitter c = true) → (∀ c ∈ v, is_splitter c = true) →
      tokens is_splitter P ≠ [] → (tokens is_splitter P).getLast? ≠ some ['|'] →
      (stages (parse_line line command_zero)).map stage_view =
        (stages (parse_line P command_zero)).map stage_view := by
  constructor
  · rw [parse_line_eq]
    have hl := last_char_tokens line
    rw [h] at hl
    cases hts : tokens is_splitter line with
    | nil => rw [hts] at hl; simp [last_char] at hl
    | cons a as =>
      rw [hts] at hl
      rw [parse_cmd_toks_cons, (parse_toks_flags _ _ _).1, hl]
      rfl
  · intro P w v hline hw hws hvs hP hlast
    have hT : tokens is_splitter line = tokens is_splitter P ++ [['&']] := by
      have h1 : tokens is_splitter ('&' :: v) = [['&']] := by
        have := tokens_ws_suffix is_splitter ['&'] v hvs
        rw [tokens_single is_splitter ['&'] (by intro c hc; simp at hc; subst hc; decide)
          (by simp)] at this
        exact this
      rw [hline, tokens_append_ws is_splitter P w _ hw hws, h1]
    rw [parse_line_eq, parse_line_eq P, hT]
    cases hts : tokens is_splitter P with
    | nil => exact absurd hts hP
    | cons a as =>
      rw [hts] at hlast
      rw [List.cons_append, parse_cmd_toks_cons, parse_cmd_toks_cons]
      exact marker_token_views as.length as (Nat.le_refl _) (getLast?_tail_ne a as _ hlast)
        _ _ 0 rfl rfl rfl rfl rfl rfl

theorem tokens_no_delim (d : Char → Bool) (n : Nat) :
    ∀ (s t : Str), s.length ≤ n → t ∈ tokens d s → ∀ c ∈ t, d c = false := by
  induction n with
  | zero =>
    intro s t hl ht
    have hs : s = [] := List.length_eq_zero.mp (Nat.le_zero.mp hl)
    rw [hs, tokens_nil] at ht
    simp at ht
  | succ n ih =>
    intro s t hl ht
    rcases strtok_r_tokens d s with ⟨_, h2⟩ | ⟨u, rest, _, h2, _, h4, h5⟩
    · rw [h2] at ht; simp at ht
    · rw [h2] at ht
      rcases List.mem_cons.mp ht with h | h
      · rw [h]; exact h4
      · exact ih rest t (by omega) h

theorem last_char_after_pipe (pre ys : List Str) :
    last_char (pre ++ ['|'] :: ys) = some '&' ↔ last_char ys = some '&' := by
  cases ys with
  | nil => simp [last_char]
  | cons y ys =>
    unfold last_char
    rw [List.getLast?_append_of_ne_nil _ (by simp), List.getLast?_cons_cons]

theorem parse_cmd_toks_start (t : Str) (ts : List Str) :
    ∃ c1 : command_t, parse_cmd_toks (t :: ts) command_zero = parse_toks ts c1 0 ∧
      c1.name = t ∧ c1.args = [] ∧ c1.redirects = [none, none, none] ∧ c1.next = none ∧
      c1.background = decide (last_char (t :: ts) = some '&') :=
  ⟨_, parse_cmd_toks_cons t ts command_zero, rfl, rfl, rfl, rfl, by simp [command_zero]⟩

/-- Every stage parsed from a token list carries the flag of the last
character of the list. -/
theorem stages_background (n : Nat) :
    ∀ (ts : List Str), ts.length ≤ n →
      ∀ s ∈ stages (parse_cmd_toks ts command_zero),
        s.background = decide (last_char ts = some '&') := by
  induction n with
  | zero =>
    intro ts hl s hs
    have hts : ts = [] := List.length_eq_zero.mp (Nat.le_zero.mp hl)
    subst hts
    rw [parse_cmd_toks_nil, stages_of_next_none _ rfl] at hs
    rw [List.mem_singleton.mp hs]
    rfl
  | succ n ih =>
    intro ts hl s hs
    cases ts with
    | nil =>
      rw [parse_cmd_toks_nil, stages_of_next_none _ rfl] at hs
      rw [List.mem_singleton.mp hs]
      rfl
    | cons a as =>
      obtain ⟨c1, e, _, ha, _, hnx, hbg⟩ := parse_cmd_toks_start a as
      rw [e] at hs
      have hb := (parse_toks_flags as c1 0).1
      have hi : c1.args.length = 0 := by rw [ha]; rfl
      rcases parse_toks_cases as c1 0 with ⟨h1, _⟩ | ⟨xs, ys, h1, h2, _⟩
      · have hn := (parse_toks_no_pipe as c1 0 h1 hi).2.2.2.2.2.2
        rw [stages_of_next_none _ (hn.trans hnx)] at hs
        rw [List.mem_singleton.mp hs, hb, hbg]
      · subst h1
        have hn := (parse_toks_pipe xs ys c1 0 h2 hi).2.2.2.2.2.2
        rw [stages_of_next_some _ _ hn] at hs
        rcases List.mem_cons.mp hs with h | h
        · rw [h, hb, hbg]
        · have hl2 : ys.length ≤ n := by simp at hl; omega
          rw [ih ys hl2 s h]
          have := last_char_after_pipe (a :: xs) ys
          simp only [List.cons_append] at this
          simp [this]

theorem head_mem_stages (c : command_t) : c ∈ stages c := by
  rw [stages_eq]
  exact List.mem_cons_self _ _

/-- With enough fuel the directory loop returns the first candidate, in the
order of the components, that passes the check. -/
theorem resolve_dirs_eq (X : Str → Bool) (cmd : Str) (f : Nat) :
    ∀ (s : Str), s.length < f →
      resolve_dirs X cmd f s =
        ((tokens (fun c => c == ':') s).map (fun d => d ++ '/' :: cmd)).find? X := by
  induction f with
  | zero => intro s h; omega
  | succ f ih =>
    intro s h
    rw [resolve_dirs]
    rcases strtok_r_tokens (fun c => c == ':') s with ⟨h1, h2⟩ | ⟨t, rest, h1, h2, _, _, h5⟩
    · rw [h1, h2]; rfl
    · rw [h1, h2]
      simp only [List.map_cons, List.find?_cons]
      by_cases hx : X (t ++ '/' :: cmd) = true
      · simp [hx]
      · simp only [hx, if_false]
        rw [ih rest (by omega)]
        simp [hx]

/-- C6. For a non-empty name without `/`, `resolve_in_path` returns `d/name`
for the first `d`, in listed order, among the non-empty `:`-separated
components of `PATH` whose candidate passes the execute-permission check; it
returns not-found exactly when `PATH` is unset or no component passes; and
every path it returns passes the check. -/
theorem resolve_in_path_search (w : World) (name : Str)
    (hne : name ≠ []) (hslash : '/' ∉ name) :
    resolve_in_path w name =
      (match w.path_env with
        | none => none
        | some p => ((path_components p).map (fun d => d ++ '/' :: name)).find? w.access_x) ∧
    (resolve_in_path w name = none ↔
      (w.path_env = none ∨ ∃ p, w.path_env = some p ∧
        ∀ d ∈ path_components p, w.access_x (d ++ '/' :: name) = false)) ∧
    (∀ r, resolve_in_path w name = some r → w.access_x r = true) := by
  have h0 : resolve_in_path w name =
      (match w.path_env with
        | none => none
        | some p =>
          ((path_components p).map (fun d => d ++ '/' :: name)).find? w.access_x) := by
    unfold resolve_in_path
    rw [if_neg hne, if_neg hslash]
    cases hp : w.path_env with
    | none => rfl
    | some p => exact resolve_dirs_eq w.access_x name _ p (Nat.lt_succ_self _)
  refine ⟨h0, ?_, ?_⟩
  · rw [h0]
    cases hp : w.path_env with
    | none => simp
    | some p => simp [List.find?_eq_none]
  · intro r hr
    rw [h0] at hr
    cases hp : w.path_env with
    | none => rw [hp] at hr; simp at hr
    | some p =>
      rw [hp] at hr
      exact List.find?_some hr

/-! ## process_command -/

theorem is_external_names (name : Str) (h : is_external name = true) :
    name ≠ [] ∧ name ≠ "exit".toList ∧ name ≠ "cd".toList ∧ name ≠ "chatroom".toList ∧
      name ≠ "cut".toList := by
  unfold is_external at h
  simp only [Bool.not_eq_true', Bool.or_eq_false_iff, beq_eq_false_iff_ne, ne_eq] at h
  obtain ⟨⟨⟨⟨h1, h2⟩, h3⟩, h4⟩, h5⟩ := h
  exact ⟨h1, h2, h3, h4, h5⟩

theorem process_command_single (w : World) (pid : Pid) (name : Str) (bg ac : Bool) (k : Nat)
    (as rs : List (Option Str)) (h : is_external name = true) :
    process_command w pid ⟨name, bg, ac, k, as, rs, none⟩ =
      (SUCCESS,
        (pid, Ev.fork (pid ++ [0])) ::
          (child_body w ⟨name, bg, ac, k, as, rs, none⟩).1.map (fun e => (pid ++ [0], e)) ++
        [(pid, Ev.waitpid (pid ++ [0]) bg)]) := by
  obtain ⟨h1, h2, h3, h4, h5⟩ := is_external_names name h
  rw [process_command]
  simp only [if_neg h1, if_neg h2, if_neg h4, if_neg h5, h3, false_and, if_false]

theorem process_command_chain (w : World) (pid : Pid) (name : Str) (bg ac : Bool) (k : Nat)
    (as rs : List (Option Str)) (nx : command_t) (h : is_external name = true)
    (hp : w.pipe_ok pid = true) :
    process_command w pid ⟨name, bg, ac, k, as, rs, some nx⟩ =
      (SUCCESS,
        (pid, Ev.pipe) :: (pid, Ev.fork (pid ++ [0])) ::
          (left_body w ⟨name, bg, ac, k, as, rs, some nx⟩).1.map (fun e => (pid ++ [0], e)) ++
        (pid, Ev.fork (pid ++ [1])) ::
          (pid ++ [1], Ev.dup2_pipe_stdin) :: (pid ++ [1], Ev.close_pipe_read) ::
          (pid ++ [1], Ev.close_pipe_write) :: (process_command w (pid ++ [1]) nx).2 ++
        [(pid ++ [1], Ev.exit (process_command w (pid ++ [1]) nx).1),
         (pid, Ev.close_pipe_read), (pid, Ev.close_pipe_write),
         (pid, Ev.waitpid (pid ++ [0]) bg), (pid, Ev.waitpid (pid ++ [1]) bg)]) := by
  obtain ⟨h1, h2, h3, h4, h5⟩ := is_external_names name h
  rw [process_command]
  simp only [if_neg h1, if_neg h2, if_neg h4, if_neg h5, h3, false_and, if_false, hp, if_true]

theorem process_command_returns_success (w : World) (pid : Pid) (c : command_t)
    (h : is_external c.name = true) : (process_command w pid c).1 = SUCCESS := by
  rcases c with ⟨name, bg, ac, k, as, rs, nx⟩
  cases nx with
  | none => rw [process_command_single w pid name bg ac k as rs h]
  | some d =>
    obtain ⟨h1, h2, h3, h4, h5⟩ := is_external_names name h
    rw [process_command]
    simp only [if_neg h1, if_neg h2, if_neg h4, if_neg h5, h3, false_and, if_false]
    cases w.pipe_ok pid <;> rfl

theorem all_external_head (c : command_t) (h : all_external c = true) :
    is_external c.name = true := by
  unfold all_external at h
  rw [List.all_eq_true] at h
  exact h c (head_mem_stages c)

/-- C7, amended. For every chain of external commands, in the foreground or
in the background, `process_command` returns `SUCCESS` to its caller,
whatever the exit status of the process of the rightmost stage. -/
theorem process_command_status (w : World) (pid : Pid) (c : command_t)
    (h : all_external c = true) : (process_command w pid c).1 = SUCCESS :=
  process_command_returns_success w pid c (all_external_head c h)

theorem do_execv_no_fork (w : World) (fullpath : Str) (c : command_t) :
    ∀ e ∈ (do_execv w fullpath c).1, is_pipe_or_fork e = false := by
  intro e he
  unfold do_execv at he
  cases h : w.execv_status fullpath c.args with
  | none =>
    rw [h] at he
    simp only [List.mem_cons, List.mem_singleton, List.not_mem_nil, or_false] at he
    rcases he with h | h | h <;> rw [h] <;> rfl
  | some st =>
    rw [h] at he
    simp only [List.mem_singleton] at he
    rw [he]; rfl

theorem apply_redirect_no_fork (w : World) (slot : Option Str) (mode : open_mode) (dup : Ev)
    (k : List Ev × Int) (hdup : is_pipe_or_fork dup = false)
    (hk : ∀ e ∈ k.1, is_pipe_or_fork e = false) :
    ∀ e ∈ (apply_redirect w slot mode dup k).1, is_pipe_or_fork e = false := by
  intro e he
  unfold apply_redirect at he
  cases slot with
  | none => exact hk e he
  | some path =>
    simp only at he
    by_cases ho : w.open_ok path mode = true
    · rw [if_pos ho] at he
      simp only [List.mem_cons] at he
      rcases he with h | h | h | h
      · rw [h]; rfl
      · rw [h]; exact hdup
      · rw [h]; rfl
      · exact hk e h
    · rw [if_neg ho] at he
      simp only [List.mem_cons, List.mem_singleton, List.not_mem_nil, or_false] at he
      rcases he with h | h | h <;> rw [h] <;> rfl

theorem child_body_no_fork (w : World) (c : command_t) :
    ∀ e ∈ (child_body w c).1, is_pipe_or_fork e = false := by
  intro e he
  unfold child_body at he
  cases h : resolve_in_path w c.name with
  | none =>
    rw [h] at he
    simp only [List.mem_cons, List.mem_singleton, List.not_mem_nil, or_false] at he
    rcases he with h | h <;> rw [h] <;> rfl
  | some fp =>
    rw [h] at he
    exact apply_redirect_no_fork w _ _ Ev.dup2_file_stdin _ rfl
      (apply_redirect_no_fork w _ _ Ev.dup2_file_stdout _ rfl
        (apply_redirect_no_fork w _ _ Ev.dup2_file_stdout _ rfl (do_execv_no_fork w fp c))) e he

theorem left_body_no_fork (w : World) (c : command_t) :
    ∀ e ∈ (left_body w c).1, is_pipe_or_fork e = false := by
  intro e he
  unfold left_body at he
  simp only [List.mem_cons] at he
  rcases he with h | h | h | h
  · rw [h]; rfl
  · rw [h]; rfl
  · rw [h]; rfl
  · cases hr : resolve_in_path w c.name with
    | none =>
      rw [hr] at h
      simp only [List.mem_cons, List.mem_singleton, List.not_mem_nil, or_false] at h
      rcases h with h | h <;> rw [h] <;> rfl
    | some fp =>
      rw [hr] at h
      exact do_execv_no_fork w fp c e h

theorem count_tagged (p : Pid) (l : List Ev) (h : ∀ e ∈ l, is_pipe_or_fork e = false) :
    count_pipes (l.map (fun e => (p, e))) = 0 ∧ count_forks (l.map (fun e => (p, e))) = 0 := by
  unfold count_pipes count_forks
  constructor
  · rw [List.countP_eq_zero]
    intro a ha
    obtain ⟨e, he, rfl⟩ := List.mem_map.mp ha
    have := h e he
    cases e <;> simp_all [is_pipe_or_fork]
  · rw [List.countP_eq_zero]
    intro a ha
    obtain ⟨e, he, rfl⟩ := List.mem_map.mp ha
    have := h e he
    cases e <;> simp_all [is_pipe_or_fork]

theorem count_pipes_append (s t : List (Pid × Ev)) :
    count_pipes (s ++ t) = count_pipes s + count_pipes t := by
  unfold count_pipes; exact List.countP_append _ _ _

theorem count_forks_append (s t : List (Pid × Ev)) :
    count_forks (s ++ t) = count_forks s + count_forks t := by
  unfold count_forks; exact List.countP_append _ _ _

theorem stages_length_pos (c : command_t) : 0 < (stages c).length := by
  rw [stages_eq]; simp

/-- The pipes and forks of a chain of external commands, by the number of
its stages. -/
theorem process_command_counts (w : World) (hp : ∀ p, w.pipe_ok p = true) (n : Nat) :
    ∀ (c : command_t) (pid : Pid), (stages c).length = n → all_external c = true →
      count_pipes (process_command w pid c).2 = n - 1 ∧
      count_forks (process_command w pid c).2 = 2 * n - 1 := by
  induction n with
  | zero =>
    intro c pid hn _
    have := stages_length_pos c
    omega
  | succ n ih =>
    intro c pid hn hext
    have hhead := all_external_head c hext
    rcases c with ⟨name, bg, ac, k, as, rs, nx⟩
    cases nx with
    | none =>
      have hn1 : n = 0 := by
        rw [stages_of_next_none _ rfl] at hn
        simpa using hn.symm
      subst hn1
      rw [process_command_single w pid name bg ac k as rs hhead]
      obtain ⟨c1, c2⟩ := count_tagged (pid ++ [0]) _
        (child_body_no_fork w ⟨name, bg, ac, k, as, rs, none⟩)
      rw [← List.singleton_append, count_pipes_append, count_pipes_append,
        count_forks_append, count_forks_append, c1, c2]
      exact ⟨rfl, rfl⟩
    | some d =>
      have hst : stages (⟨name, bg, ac, k, as, rs, some d⟩ : command_t) =
          ⟨name, bg, ac, k, as, rs, some d⟩ :: stages d := stages_of_next_some _ _ rfl
      have hn1 : (stages d).length = n := by
        rw [hst] at hn
        simpa using hn
      have hext2 : all_external d = true := by
        unfold all_external at hext ⊢
        rw [hst, List.all_cons, Bool.and_eq_true] at hext
        exact hext.2
      obtain ⟨i1, i2⟩ := ih d (pid ++ [1]) hn1 hext2
      have hpos := stages_length_pos d
      rw [process_command_chain w pid name bg ac k as rs d hhead (hp pid)]
      obtain ⟨c1, c2⟩ := count_tagged (pid ++ [0]) _
        (left_body_no_fork w ⟨name, bg, ac, k, as, rs, some d⟩)
      have e : ∀ (L R T : List (Pid × Ev)) (a b c4 e5 e6 e7 : Pid × Ev),
          a :: b :: L ++ c4 :: e5 :: e6 :: e7 :: R ++ T =
            [a, b] ++ (L ++ ([c4, e5, e6, e7] ++ (R ++ T))) := by
        intros; simp
      rw [e]
      simp only [count_pipes_append, count_forks_append, c1, c2, i1, i2]
      constructor
      · have a1 : count_pipes [(pid, Ev.pipe), (pid, Ev.fork (pid ++ [0]))] = 1 := rfl
        have a2 : count_pipes [(pid, Ev.fork (pid ++ [1])), (pid ++ [1], Ev.dup2_pipe_stdin),
            (pid ++ [1], Ev.close_pipe_read), (pid ++ [1], Ev.close_pipe_write)] = 0 := rfl
        have a3 : ∀ (x : Int) (b1 b2 : Bool), count_pipes [(pid ++ [1], Ev.exit x),
            (pid, Ev.close_pipe_read), (pid, Ev.close_pipe_write),
            (pid, Ev.waitpid (pid ++ [0]) b1), (pid, Ev.waitpid (pid ++ [1]) b2)] = 0 :=
          fun _ _ _ => rfl
        rw [a1, a2, a3]
        omega
      · have a1 : count_forks [(pid, Ev.pipe), (pid, Ev.fork (pid ++ [0]))] = 1 := rfl
        have a2 : count_forks [(pid, Ev.fork (pid ++ [1])), (pid ++ [1], Ev.dup2_pipe_stdin),
            (pid ++ [1], Ev.close_pipe_read), (pid ++ [1], Ev.close_pipe_write)] = 1 := rfl
        have a3 : ∀ (x : Int) (b1 b2 : Bool), count_forks [(pid ++ [1], Ev.exit x),
            (pid, Ev.close_pipe_read), (pid, Ev.close_pipe_write),
            (pid, Ev.waitpid (pid ++ [0]) b1), (pid, Ev.waitpid (pid ++ [1]) b2)] = 0 :=
          fun _ _ _ => rfl
        rw [a1, a2, a3]
        omega

/-- C9, amended. For every chain of `N ≥ 1` stages whose names are all
external commands, when every `pipe` call succeeds (and every `fork`, as the
model takes it), running `process_command` on the head creates, counted over
the calling process and all of its descendants, exactly `N - 1` pipes and
exactly `2 * N - 1` forked processes. -/
theorem process_command_pipes_forks (w : World) (pid : Pid) (c : command_t)
    (hp : ∀ p, w.pipe_ok p = true) (hext : all_external c = true) :
    count_pipes (process_command w pid c).2 = (stages c).length - 1 ∧
    count_forks (process_command w pid c).2 = 2 * (stages c).length - 1 :=
  process_command_counts w hp _ c pid rfl hext

/-! ## The tokens copied into temp_buf -/

theorem loop_tokens_no_pipe (xs : List Str) (h : ['|'] ∉ xs) : loop_tokens xs = xs := by
  induction xs with
  | nil => exact loop_tokens_nil
  | cons t xs ih =>
    have ht : t ≠ ['|'] := fun e => h (by simp [e])
    rw [loop_tokens_cons, if_neg ht, ih (fun m => h (List.mem_cons_of_mem t m))]

theorem loop_tokens_append_marker (n : Nat) :
    ∀ (ts : List Str), ts.length ≤ n → ts.getLast? ≠ some ['|'] →
      ∀ x : Str, loop_tokens (ts ++ [x]) = loop_tokens ts ++ [x] := by
  induction n using Nat.strong_induction_on with
  | _ n ih =>
    intro ts hl hlast x
    cases ts with
    | nil =>
      rw [List.nil_append, loop_tokens_cons, loop_tokens_nil, stage_tokens_nil]
      simp
    | cons t ts =>
      rw [List.cons_append, loop_tokens_cons, loop_tokens_cons]
      have hlast2 := getLast?_tail_ne t ts _ hlast
      by_cases ht : t = ['|']
      · rw [if_pos ht, if_pos ht]
        cases ts with
        | nil => rw [ht] at hlast; simp at hlast
        | cons u us =>
          rw [List.cons_append, stage_tokens_cons, stage_tokens_cons]
          have := ih us.length (by simp at hl; omega) us (Nat.le_refl _)
            (getLast?_tail_ne u us _ hlast2) x
          rw [this]
          rfl
      · rw [if_neg ht, if_neg ht]
        have := ih ts.length (by simp at hl; omega) ts (Nat.le_refl _) hlast2 x
        rw [this]
        rfl

theorem fits_temp_buf_iff (line : Str) :
    fits_temp_buf line = true ↔
      ∀ t ∈ stage_tokens (tokens is_splitter line), t.length < temp_buf_size := by
  unfold fits_temp_buf temp_buf_tokens
  rw [List.all_eq_true]
  simp

/-! ## The line as the tokens before and after a point -/

/-- The chain of the line `ls -la | grep txt`: two stages, `ls` with the
argument `-la` and `grep` with the argument `txt`, and nothing after them. -/
theorem parse_ls_grep_chain :
    ∃ head, parse_command "ls -la | grep txt".toList command_zero = some head ∧
      (stages head).map stage_view =
        [("ls".toList, [some "ls".toList, some "-la".toList, none], [none, none, none]),
         ("grep".toList, [some "grep".toList, some "txt".toList, none],
           [none, none, none])] :=
  ⟨_, parse_command_fits _ _ (by decide), by decide⟩

/-- C2, counterexample: the line `echo "a b"` is split at the space inside the
quotes, so it has two positional arguments, `"a` and `b"`, and not the single
argument `a b`. -/
theorem quoted_space_counterexample :
    ∃ c, parse_command "echo \"a b\"".toList command_zero = some c ∧
      c.args = [some "echo".toList, some "\"a".toList, some "b\"".toList, none] ∧
      c.args ≠ [some "echo".toList, some "a b".toList, none] :=
  ⟨_, parse_command_fits _ _ (by decide), by decide⟩

theorem tokens_quoted_line (s : Str) (q : Char) (hq : q = '"' ∨ q = '\'')
    (hws : ∀ c ∈ s, is_splitter c = false) :
    tokens is_splitter ("echo ".toList ++ q :: (s ++ [q])) =
      ["echo".toList, q :: (s ++ [q])] := by
  have hqws : is_splitter q = false := by
    rcases hq with h | h <;> subst h <;> decide
  have htws : ∀ c ∈ q :: (s ++ [q]), is_splitter c = false := by
    intro c hc
    simp only [List.mem_cons, List.mem_append, List.mem_singleton, List.not_mem_nil,
      or_false] at hc
    rcases hc with h | h | h
    · rw [h]; exact hqws
    · exact hws c h
    · rw [h]; exact hqws
  have h1 := tokens_append_ws is_splitter "echo".toList [' '] (q :: (s ++ [q])) (by simp)
    (by intro c hc; simp at hc; subst hc; decide)
  have h2 : tokens is_splitter "echo".toList = ["echo".toList] := by decide
  rw [h2, tokens_single _ _ htws (by simp)] at h1
  exact h1

/-- C2, amended. For every non-empty string `s` of at most 1021 bytes without
a quote character and without a space or a tab (it may contain the pipe
character), the line `echo "s"`, or the same with single quotes, parses to a
single stage with exactly one positional argument, equal to `s`, and no next
stage. The bound is that of `temp_buf` on the token `"s"`. -/
theorem parse_command_quoted_word (s : Str) (q : Char) (hq : q = '"' ∨ q = '\'')
    (hs : s ≠ []) (hnq : ∀ c ∈ s, c ≠ '"' ∧ c ≠ '\'')
    (hws : ∀ c ∈ s, is_splitter c = false) (hlen : s.length + 2 < temp_buf_size) :
    ∃ c, parse_command ("echo ".toList ++ q :: (s ++ [q])) command_zero = some c ∧
      c.name = "echo".toList ∧ c.args = [some "echo".toList, some s, none] ∧
      c.arg_count = 3 ∧ c.next = none := by
  have hfit : fits_temp_buf ("echo ".toList ++ q :: (s ++ [q])) = true := by
    rw [fits_temp_buf_iff, tokens_quoted_line s q hq hws, stage_tokens_cons]
    have hne : q :: (s ++ [q]) ≠ ['|'] := by
      cases s with
      | nil => exact absurd rfl hs
      | cons a r => simp
    rw [loop_tokens_no_pipe _ (by simp [hne.symm])]
    intro t ht
    rw [List.mem_singleton.mp ht]
    simp only [List.length_cons, List.length_append, List.length_nil]
    omega
  exact ⟨_, parse_command_fits _ _ hfit, parse_line_quoted_word s q hq hs hnq hws⟩

/-- C2, witness: the line `echo "a|b"`. -/
theorem parse_command_quoted_word_witness :
    ∃ c, parse_command ("echo ".toList ++ '"' :: ("a|b".toList ++ ['"'])) command_zero = some c ∧
      c.name = "echo".toList ∧ c.args = [some "echo".toList, some "a|b".toList, none] ∧
      c.arg_count = 3 ∧ c.next = none :=
  parse_command_quoted_word "a|b".toList '"' (Or.inl rfl) (by decide) (by decide) (by decide)
    (by decide)

/-- C3, counterexample: in the line `sort < in.txt > out.txt` the tokens `<`
and `>` set both slots to the empty string, and the two paths are stored as
positional arguments. -/
theorem spaced_redirect_counterexample :
    ∃ c, parse_command "sort < in.txt > out.txt".toList command_zero = some c ∧
      c.redirects = [some [], some [], none] ∧
      c.args = [some "sort".toList, some "in.txt".toList, some "out.txt".toList, none] ∧
      c.redirects ≠ [some "in.txt".toList, some "out.txt".toList, none] :=
  ⟨_, parse_command_fits _ _ (by decide), by decide⟩

theorem tokens_redirect_line (c p q : Str)
    (hc : c ≠ []) (hcw : ∀ x ∈ c, is_splitter x = false)
    (hpw : ∀ x ∈ p, is_splitter x = false) (hqw : ∀ x ∈ q, is_splitter x = false) :
    tokens is_splitter (c ++ " <".toList ++ p ++ " >".toList ++ q) =
      [c, '<' :: p, '>' :: q] := by
  have hpw2 : ∀ x ∈ '<' :: p, is_splitter x = false := by
    intro x hx
    rcases List.mem_cons.mp hx with h | h
    · rw [h]; decide
    · exact hpw x h
  have hqw2 : ∀ x ∈ '>' :: q, is_splitter x = false := by
    intro x hx
    rcases List.mem_cons.mp hx with h | h
    · rw [h]; decide
    · exact hqw x h
  have hsp : ∀ x ∈ [' '], is_splitter x = true := by
    intro x hx; simp at hx; subst hx; decide
  have e : c ++ " <".toList ++ p ++ " >".toList ++ q =
      c ++ [' '] ++ (('<' :: p) ++ [' '] ++ ('>' :: q)) := by
    simp
  rw [e, tokens_append_ws _ _ _ _ (by simp) hsp, tokens_append_ws _ _ _ _ (by simp) hsp,
    tokens_single _ _ hcw hc, tokens_single _ _ hpw2 (by simp),
    tokens_single _ _ hqw2 (by simp)]
  rfl

/-- C3, amended. For every command name `c` and all non-empty whitespace-free
paths `p` and `q` of at most 1022 bytes, `q` not starting with `>`, the line
`c <p >q`, with each operator attached to its path, parses to a single stage
with `redirect_input = p`, `redirect_output_truncate = q`, the append slot
unset and no next stage. The bound is that of `temp_buf` on the tokens `<p`
and `>q`. -/
theorem parse_command_redirects (c p q : Str)
    (hc : c ≠ []) (hcw : ∀ x ∈ c, is_splitter x = false)
    (hp : p ≠ []) (hpw : ∀ x ∈ p, is_splitter x = false)
    (hq : q ≠ []) (hqw : ∀ x ∈ q, is_splitter x = false)
    (hq2 : q.head? ≠ some '>')
    (hpl : p.length + 1 < temp_buf_size) (hql : q.length + 1 < temp_buf_size) :
    ∃ r, parse_command (c ++ " <".toList ++ p ++ " >".toList ++ q) command_zero = some r ∧
      r.name = c ∧ r.redirects = [some p, some q, none] ∧ r.next = none := by
  have hfit : fits_temp_buf (c ++ " <".toList ++ p ++ " >".toList ++ q) = true := by
    rw [fits_temp_buf_iff, tokens_redirect_line c p q hc hcw hpw hqw, stage_tokens_cons,
      loop_tokens_no_pipe _ (by
        cases p with
        | nil => exact absurd rfl hp
        | cons a r =>
          cases q with
          | nil => exact absurd rfl hq
          | cons b u => simp)]
    intro t ht
    simp only [List.mem_cons, List.mem_singleton, List.not_mem_nil, or_false] at ht
    rcases ht with h | h
    · rw [h]; simpa using hpl
    · rw [h]; simpa using hql
  exact ⟨_, parse_command_fits _ _ hfit, parse_line_redirects c p q hc hcw hp hpw hq hqw hq2⟩

/-- C3, witness: the line `sort <in.txt >out.txt`. -/
theorem parse_command_redirects_witness :
    ∃ r, parse_command ("sort".toList ++ " <".toList ++ "in.txt".toList ++ " >".toList ++
        "out.txt".toList) command_zero = some r ∧
      r.name = "sort".toList ∧
      r.redirects = [some "in.txt".toList, some "out.txt".toList, none] ∧ r.next = none :=
  parse_command_redirects "sort".toList "in.txt".toList "out.txt".toList
    (by decide) (by decide) (by decide) (by decide) (by decide) (by decide) (by decide)
    (by decide) (by decide)

theorem tokens_marker_line (P w v : Str) (hw : w ≠ [])
    (hws : ∀ c ∈ w, is_splitter c = true) (hvs : ∀ c ∈ v, is_splitter c = true) :
    tokens is_splitter (P ++ w ++ '&' :: v) = tokens is_splitter P ++ [['&']] := by
  have h1 : tokens is_splitter ('&' :: v) = [['&']] := by
    have := tokens_ws_suffix is_splitter ['&'] v hvs
    rw [tokens_single is_splitter ['&'] (by intro c hc; simp at hc; subst hc; decide)
      (by simp)] at this
    exact this
  rw [tokens_append_ws is_splitter P w _ hw hws, h1]

/-- C4, counterexample: in the line `ls&` the marker stays in the name. -/
theorem attached_marker_counterexample :
    ∃ c d, parse_command "ls&".toList command_zero = some c ∧
      parse_command "ls".toList command_zero = some d ∧
      c.name = "ls&".toList ∧ c.name ≠ d.name :=
  ⟨_, _, parse_command_fits _ _ (by decide), parse_command_fits _ _ (by decide), by decide⟩

/-- C4, amended. For every line whose last non-whitespace character is `&`
and whose tokens copied into `temp_buf` (every token but the name of a
stage) have at most 1023 bytes, `parse_command` sets `background` on the head
stage. When that `&` is a token of its own, after whitespace, and the part `P`
of the line before it has at least one token and does not end with a pipe
token, the name, the argument vector and the redirection slots of every stage
of the chain are those obtained by parsing `P`. -/
theorem trailing_marker_sets_background (line : Str) (h : last_non_ws line = some '&')
    (hf : fits_temp_buf line = true) :
    ∃ c, parse_command line command_zero = some c ∧ c.background = true ∧
      ∀ (P w v : Str), line = P ++ w ++ '&' :: v → w ≠ [] →
        (∀ x ∈ w, is_splitter x = true) → (∀ x ∈ v, is_splitter x = true) →
        tokens is_splitter P ≠ [] → (tokens is_splitter P).getLast? ≠ some ['|'] →
        ∃ d, parse_command P command_zero = some d ∧
          (stages c).map stage_view = (stages d).map stage_view := by
  obtain ⟨h1, h2⟩ := parse_line_marker line h
  refine ⟨_, parse_command_fits _ _ hf, h1, ?_⟩
  intro P w v hline hw hws hvs hP hlast
  have hfP : fits_temp_buf P = true := by
    rw [fits_temp_buf_iff] at hf ⊢
    rw [hline, tokens_marker_line P w v hw hws hvs] at hf
    cases hts : tokens is_splitter P with
    | nil => exact absurd hts hP
    | cons a as =>
      rw [hts] at hf hlast
      rw [List.cons_append, stage_tokens_cons,
        loop_tokens_append_marker _ as (Nat.le_refl _) (getLast?_tail_ne a as _ hlast)] at hf
      rw [stage_tokens_cons]
      intro t ht
      exact hf t (List.mem_append_left _ ht)
  exact ⟨_, parse_command_fits _ _ hfP, h2 P w v hline hw hws hvs hP hlast⟩

/-- C4, witness: the line `tail -f log.txt &`, whose marker follows
`tail -f log.txt` and a space; its chain is that of `tail -f log.txt`, the
single stage `tail` with the arguments `-f` and `log.txt`. -/
theorem trailing_marker_sets_background_witness :
    ∃ c, parse_command "tail -f log.txt &".toList command_zero = some c ∧
      c.background = true ∧
      ∃ d, parse_command "tail -f log.txt".toList command_zero = some d ∧
        (stages c).map stage_view = (stages d).map stage_view ∧
        (stages d).map stage_view =
          [("tail".toList,
            [some "tail".toList, some "-f".toList, some "log.txt".toList, none],
            [none, none, none])] := by
  obtain ⟨c, h1, h2, h3⟩ :=
    trailing_marker_sets_background "tail -f log.txt &".toList (by decide) (by decide)
  obtain ⟨d, g1, g2⟩ := h3 "tail -f log.txt".toList " ".toList [] (by decide) (by decide)
    (by decide) (by decide) (by decide) (by decide)
  refine ⟨c, h1, h2, d, g1, g2, ?_⟩
  have hd : parse_command "tail -f log.txt".toList command_zero =
      some (parse_line "tail -f log.txt".toList command_zero) :=
    parse_command_fits _ _ (by decide)
  rw [hd] at g1
  rw [← Option.some.inj g1]
  decide

/-- The argument vectors of the line `ls -la | grep -i "txt" >out`. -/
theorem parse_ls_grep_args :
    ∃ head, parse_command "ls -la | grep -i \"txt\" >out".toList command_zero = some head ∧
      (stages head).map (fun c => (c.arg_count, c.args)) =
        [(3, [some "ls".toList, some "-la".toList, none]),
         (4, [some "grep".toList, some "-i".toList, some "txt".toList, none])] :=
  ⟨_, parse_command_fits _ _ (by decide), by decide⟩

/-- The flags of the two stages of the line `ls | wc &`. -/
theorem parse_ls_wc_flags :
    ∃ head, parse_command "ls | wc &".toList command_zero = some head ∧
      (stages head).map (fun c => (c.name, c.background)) =
        [("ls".toList, true), ("wc".toList, true)] :=
  ⟨_, parse_command_fits _ _ (by decide), by decide⟩

/-! ## Runs of concrete lines -/

/-- C6, witness: with `PATH=/a:/b` and only `/b/tool` executable, `tool`
resolves to `/b/tool`. -/
theorem resolve_in_path_search_witness :
    resolve_in_path world_ab "tool".toList = some "/b/tool".toList ∧
    (resolve_in_path world_ab "tool".toList = none ↔
      (world_ab.path_env = none ∨ ∃ p, world_ab.path_env = some p ∧
        ∀ d ∈ path_components p, world_ab.access_x (d ++ '/' :: "tool".toList) = false)) ∧
    (∀ r, resolve_in_path world_ab "tool".toList = some r → world_ab.access_x r = true) :=
  resolve_in_path_search world_ab "tool".toList (by decide) (by decide)

/-- C7, counterexample: for the single stage `tool2`, which `PATH=/a:/b` does
not resolve, the child exits with 127 and `process_command` returns 0. -/
theorem foreground_status_counterexample :
    ∃ c, parse_command "tool2".toList command_zero = some c ∧
      all_external c = true ∧ c.background = false ∧
      rightmost_status world_ab c = 127 ∧
      (process_command world_ab [] c).1 = 0 ∧
      (process_command world_ab [] c).1 ≠ rightmost_status world_ab c :=
  ⟨_, parse_command_fits _ _ (by decide), by decide⟩

/-- C7, witness: the unresolved single stage `tool2`. -/
theorem process_command_status_witness :
    ∃ c, parse_command "tool2".toList command_zero = some c ∧
      (process_command world_ab [] c).1 = SUCCESS :=
  ⟨_, parse_command_fits _ _ (by decide),
    process_command_status world_ab [] (parse_line "tool2".toList command_zero) (by decide)⟩

/-- C8, the code at the failing input `sort <in.txt | cat`: the left child
connects its standard output to the pipe, resolves the name and calls
`execv`, and never opens `in.txt`, while the single-stage child opens it
before `execv`. -/
theorem left_child_skips_redirections :
    ∃ c, parse_command "sort <in.txt | cat".toList command_zero = some c ∧
      c.redirects = [some "in.txt".toList, none, none] ∧
      (left_body world_bin c).1 =
        [Ev.dup2_pipe_stdout, Ev.close_pipe_read, Ev.close_pipe_write,
         Ev.execv "/bin/sort".toList [some "sort".toList, none]] ∧
      (child_body world_bin c).1 =
        [Ev.open_file "in.txt".toList open_mode.rdonly, Ev.dup2_file_stdin, Ev.close_file,
         Ev.execv "/bin/sort".toList [some "sort".toList, none]] ∧
      (left_body world_bin c).1 ≠
        Ev.dup2_pipe_stdout :: Ev.close_pipe_read :: Ev.close_pipe_write ::
          (child_body world_bin c).1 :=
  ⟨_, parse_command_fits _ _ (by decide), by decide⟩

/-- C9, counterexample: the two-stage chain `tool | tool` makes three forks,
not two. -/
theorem fork_count_counterexample :
    ∃ c, parse_command "tool | tool".toList command_zero = some c ∧
      all_external c = true ∧ (stages c).length = 2 ∧
      count_pipes (process_command world_ab [] c).2 = 1 ∧
      count_forks (process_command world_ab [] c).2 = 3 ∧
      count_forks (process_command world_ab [] c).2 ≠ (stages c).length :=
  ⟨_, parse_command_fits _ _ (by decide), by decide⟩

/-- C9, witness: the three-stage chain `tool | tool | tool`. -/
theorem process_command_pipes_forks_witness :
    ∃ c, parse_command "tool | tool | tool".toList command_zero = some c ∧
      count_pipes (process_command world_ab [] c).2 = (stages c).length - 1 ∧
      count_forks (process_command world_ab [] c).2 = 2 * (stages c).length - 1 :=
  ⟨_, parse_command_fits _ _ (by decide),
    process_command_pipes_forks world_ab [] (parse_line "tool | tool | tool".toList command_zero)
      (fun _ => rfl) (by decide)⟩

/-! ## The flag consulted by the waits -/

theorem do_execv_no_wait (w : World) (fullpath : Str) (c : command_t) :
    ∀ e ∈ (do_execv w fullpath c).1, is_waitpid e = false := by
  intro e he
  unfold do_execv at he
  cases h : w.execv_status fullpath c.args with
  | none =>
    rw [h] at he
    simp only [List.mem_cons, List.mem_singleton, List.not_mem_nil, or_false] at he
    rcases he with h | h | h <;> rw [h] <;> rfl
  | some st =>
    rw [h] at he
    simp only [List.mem_singleton] at he
    rw [he]; rfl

theorem apply_redirect_no_wait (w : World) (slot : Option Str) (mode : open_mode) (dup : Ev)
    (k : List Ev × Int) (hdup : is_waitpid dup = false)
    (hk : ∀ e ∈ k.1, is_waitpid e = false) :
    ∀ e ∈ (apply_redirect w slot mode dup k).1, is_waitpid e = false := by
  intro e he
  unfold apply_redirect at he
  cases slot with
  | none => exact hk e he
  | some path =>
    simp only at he
    by_cases ho : w.open_ok path mode = true
    · rw [if_pos ho] at he
      simp only [List.mem_cons] at he
      rcases he with h | h | h | h
      · rw [h]; rfl
      · rw [h]; exact hdup
      · rw [h]; rfl
      · exact hk e h
    · rw [if_neg ho] at he
      simp only [List.mem_cons, List.mem_singleton, List.not_mem_nil, or_false] at he
      rcases he with h | h | h <;> rw [h] <;> rfl

theorem child_body_no_wait (w : World) (c : command_t) :
    ∀ e ∈ (child_body w c).1, is_waitpid e = false := by
  intro e he
  unfold child_body at he
  cases h : resolve_in_path w c.name with
  | none =>
    rw [h] at he
    simp only [List.mem_cons, List.mem_singleton, List.not_mem_nil, or_false] at he
    rcases he with h | h <;> rw [h] <;> rfl
  | some fp =>
    rw [h] at he
    exact apply_redirect_no_wait w _ _ Ev.dup2_file_stdin _ rfl
      (apply_redirect_no_wait w _ _ Ev.dup2_file_stdout _ rfl
        (apply_redirect_no_wait w _ _ Ev.dup2_file_stdout _ rfl (do_execv_no_wait w fp c))) e he

theorem left_body_no_wait (w : World) (c : command_t) :
    ∀ e ∈ (left_body w c).1, is_waitpid e = false := by
  intro e he
  unfold left_body at he
  simp only [List.mem_cons] at he
  rcases he with h | h | h | h
  · rw [h]; rfl
  · rw [h]; rfl
  · rw [h]; rfl
  · cases hr : resolve_in_path w c.name with
    | none =>
      rw [hr] at h
      simp only [List.mem_cons, List.mem_singleton, List.not_mem_nil, or_false] at h
      rcases h with h | h <;> rw [h] <;> rfl
    | some fp =>
      rw [hr] at h
      exact do_execv_no_wait w fp c e h

/-- Every `waitpid` call made while a chain runs is blocking or not according
to the flag its stages share. -/
theorem process_command_wait_flags (w : World) (b : Bool) (n : Nat) :
    ∀ (c : command_t) (pid : Pid), (stages c).length = n →
      (∀ s ∈ stages c, s.background = b) →
      ∀ e ∈ (process_command w pid c).2, ∀ ch nh, e.2 = Ev.waitpid ch nh → nh = b := by
  induction n with
  | zero =>
    intro c pid hn
    have := stages_length_pos c
    omega
  | succ n ih =>
    intro c pid hn hall e he ch nh hev
    have hb : c.background = b := hall c (head_mem_stages c)
    rcases c with ⟨name, bg, ac, k, as, rs, nx⟩
    simp only at hb
    subst hb
    cases nx with
    | none =>
      rw [process_command] at he
      by_cases h1 : name = []
      · rw [if_pos h1] at he; simp at he
      rw [if_neg h1] at he
      by_cases h2 : name = "exit".toList
      · rw [if_pos h2] at he; simp at he
      rw [if_neg h2] at he
      by_cases h3 : name = "cd".toList ∧ k > 0
      · rw [if_pos h3] at he
        cases hcd : w.chdir_ok (as.getD 1 none)
        · simp only [hcd, Bool.false_eq_true, if_false, List.mem_cons, List.mem_singleton,
            List.not_mem_nil, or_false] at he
          rcases he with h | h <;> (subst h; simp at hev)
        · simp only [hcd, if_true, List.mem_singleton] at he
          subst he; simp at hev
      rw [if_neg h3] at he
      by_cases h4 : name = "chatroom".toList
      · rw [if_pos h4] at he
        by_cases h4b : k < 3
        · rw [if_pos h4b] at he; simp at he
        · rw [if_neg h4b] at he
          simp only [List.mem_singleton] at he
          subst he; simp at hev
      rw [if_neg h4] at he
      by_cases h5 : name = "cut".toList
      · rw [if_pos h5] at he
        simp only [List.mem_singleton] at he
        subst he; simp at hev
      rw [if_neg h5] at he
      simp only [List.mem_cons, List.mem_append, List.mem_map, List.mem_singleton,
        List.not_mem_nil, or_false] at he
      rcases he with (h | ⟨x, hx, h⟩) | h
      · subst h; simp at hev
      · subst h
        have := child_body_no_wait w _ x hx
        simp only at hev
        rw [hev] at this
        exact absurd this (by simp [is_waitpid])
      · subst h
        simp only [Ev.waitpid.injEq] at hev
        exact hev.2.symm
    | some d =>
      have hst : stages (⟨name, bg, ac, k, as, rs, some d⟩ : command_t) =
          ⟨name, bg, ac, k, as, rs, some d⟩ :: stages d := stages_of_next_some _ _ rfl
      have hn1 : (stages d).length = n := by
        rw [hst] at hn
        simpa using hn
      have hall2 : ∀ s ∈ stages d, s.background = bg := by
        intro s hs
        exact hall s (by rw [hst]; exact List.mem_cons_of_mem _ hs)
      rw [process_command] at he
      by_cases h1 : name = []
      · rw [if_pos h1] at he; simp at he
      rw [if_neg h1] at he
      by_cases h2 : name = "exit".toList
      · rw [if_pos h2] at he; simp at he
      rw [if_neg h2] at he
      by_cases h3 : name = "cd".toList ∧ k > 0
      · rw [if_pos h3] at he
        cases hcd : w.chdir_ok (as.getD 1 none)
        · simp only [hcd, Bool.false_eq_true, if_false, List.mem_cons, List.mem_singleton,
            List.not_mem_nil, or_false] at he
          rcases he with h | h <;> (subst h; simp at hev)
        · simp only [hcd, if_true, List.mem_singleton] at he
          subst he; simp at hev
      rw [if_neg h3] at he
      by_cases h4 : name = "chatroom".toList
      · rw [if_pos h4] at he
        by_cases h4b : k < 3
        · rw [if_pos h4b] at he; simp at he
        · rw [if_neg h4b] at he
          simp only [List.mem_singleton] at he
          subst he; simp at hev
      rw [if_neg h4] at he
      by_cases h5 : name = "cut".toList
      · rw [if_pos h5] at he
        simp only [List.mem_singleton] at he
        subst he; simp at hev
      rw [if_neg h5] at he
      cases hpk : w.pipe_ok pid
      · simp only [hpk, Bool.false_eq_true, if_false, List.mem_cons, List.mem_singleton,
          List.not_mem_nil, or_false] at he
        rcases he with h | h <;> (subst h; simp at hev)
      simp only [hpk, if_true] at he
      simp only [List.mem_cons, List.mem_append, List.mem_map, List.mem_singleton,
        List.not_mem_nil, or_false] at he
      rcases he with ((h | h | ⟨x, hx, h⟩) | (h | h | h | h | h)) | (h | h | h | h | h)
      · subst h; simp at hev
      · subst h; simp at hev
      · subst h
        have := left_body_no_wait w _ x hx
        simp only at hev
        rw [hev] at this
        exact absurd this (by simp [is_waitpid])
      · subst h; simp at hev
      · subst h; simp at hev
      · subst h; simp at hev
      · subst h; simp at hev
      · exact ih d (pid ++ [1]) hn1 hall2 e h ch nh hev
      · subst h; simp at hev
      · subst h; simp at hev
      · subst h; simp at hev
      · subst h
        simp only [Ev.waitpid.injEq] at hev
        exact hev.2.symm
      · subst h
        simp only [Ev.waitpid.injEq] at hev
        exact hev.2.symm

/-- Every `waitpid` call made while the chain of a line runs is non-blocking
exactly when the last non-whitespace character of the line is `&`: the flag
consulted at every level of the recursion is the flag of the terminal
stage. -/
theorem process_command_waits_uniformly (line : Str) (hf : fits_temp_buf line = true)
    (w : World) (pid : Pid) :
    ∃ head, parse_command line command_zero = some head ∧
      ∀ e ∈ (process_command w pid head).2, ∀ ch nh, e.2 = Ev.waitpid ch nh →
        nh = decide (last_non_ws line = some '&') := by
  refine ⟨_, parse_command_fits _ _ hf, ?_⟩
  have key : ∀ s ∈ stages (parse_line line command_zero),
      s.background = decide (last_non_ws line = some '&') := by
    intro s hs
    rw [parse_line_eq] at hs
    rw [stages_background _ _ (Nat.le_refl _) s hs, last_char_tokens]
  exact process_command_wait_flags w _ _ _ pid rfl key

end Shellish
